import Mathlib

/-!
Verification of the typed item storage engine of the secretary skill
(`scripts/db.py`, `scripts/types_mod.py`, `scripts/items_mod.py`).

The SQLite tables are modelled as Lean lists of rows in table order:
`types` as `List TypeRow`, `items` as `List Item`, `item_relations` as
`List Relation`.  JSON payloads (`data` columns, `fields_schema`) are kept
in structured form: a payload is an ordered association list `JObj`
mirroring a Python dict (unique keys, insertion order), a field
declaration is a `FieldDef` record carrying the keys the code reads
(`name`, `type`, `ref_type`, `multiple`, `description`).  Timestamps are
natural numbers (the code stores ISO strings whose lexicographic order is
chronological order).  Fallible Python paths (raised `ValueError`,
SQLite integrity errors) are modelled with `Option`/`Except`.
-/

namespace Secretary

/-- JSON value stored inside an item's `data` payload. -/
inductive JVal where
  | jnum (n : Int)
  | jstr (s : String)
  | jbool (b : Bool)
  | jnull
  | jlist (l : List JVal)
  deriving Repr

/-- A JSON object / Python dict: ordered association list with unique keys. -/
abbrev JObj := List (String × JVal)

/-- Remove a key from a dict (Python `dict.pop`): the other pairs keep their order. -/
def jremove (d : JObj) (k : String) : JObj :=
  d.filter (fun kv => !(kv.1 == k))

/-- Python dict assignment `d[k] = v`: overwrite in place if the key exists,
otherwise append the new pair. -/
def jset (d : JObj) (k : String) (v : JVal) : JObj :=
  if (d.lookup k).isSome then
    d.map (fun kv => if kv.1 == k then (k, v) else kv)
  else d ++ [(k, v)]

/-- Python `old.update(new)`: keys of `new` overwrite in place, fresh keys are
appended in the order of `new`. -/
def dictUpdate (old new : JObj) : JObj :=
  (old.map (fun kv =>
    match new.lookup kv.1 with
    | some v => (kv.1, v)
    | none => kv))
  ++ new.filter (fun kv => (old.lookup kv.1).isNone)

/-- One field declaration of a `fields_schema` JSON list, with the keys the
code reads (`f["name"]`, `f.get("type")`, `f.get("ref_type", "")`,
`f.get("multiple", False)`, description). -/
structure FieldDef where
  name : String
  ftype : String := ""
  ref_type : String := ""
  multiple : Bool := false
  description : String := ""
  deriving DecidableEq, Repr

/-- A row of the `types` table. -/
structure TypeRow where
  name : String
  display_name : String := ""
  description : String := ""
  parent_type : Option String := none
  abstract : Bool := false
  fields_schema : List FieldDef := []
  deriving DecidableEq, Repr

abbrev TypesStore := List TypeRow

/-- `SELECT ... FROM types WHERE name = ?` (name is the primary key). -/
def findType (ts : TypesStore) (n : String) : Option TypeRow :=
  ts.find? (fun t => t.name == n)

/-- The parent recorded for a type name, if the type exists. -/
def parentOf (ts : TypesStore) (n : String) : Option String :=
  (findType ts n).bind (fun t => t.parent_type)

/-- A row of the `items` table; `data` is kept in parsed form. -/
structure Item where
  id : Int
  type : Option String := none
  title : String := ""
  content : String := ""
  data : JObj := []
  parent_id : Option Int := none
  status : String := "active"
  created_at : Nat := 0
  updated_at : Nat := 0
  deriving Repr

/-- A row of the `item_relations` table: a directed, field-qualified edge. -/
structure Relation where
  item_id : Int
  related_item_id : Int
  field_name : String
  deriving DecidableEq, Repr

/-- The database state used by the item commands, plus the autoincrement
counter and a clock supplying `datetime('now')`. -/
structure DB where
  types : TypesStore := []
  items : List Item := []
  relations : List Relation := []
  nextId : Int := 1
  now : Nat := 0
  deriving Repr

/-- Error kinds surfaced by the commands (kinds of section 7 of the spec). -/
inductive Err where
  | validation (msg : String)
  | parentNotFound (p : String)
  | circularParent
  | noValidFields
  | notFound
  | storage
  deriving DecidableEq, Repr

/-! ## db.py: `get_resolved_fields`

The source function recurses along the `parent_type` chain with no guard;
its termination relies on the chain being acyclic.  We embed it with an
explicit fuel counter, `none` meaning the recursion did not finish within
the given depth, and instantiate the fuel with `ts.length + 1`, which is
enough for every acyclic chain. -/

def get_resolved_fields_fuel : Nat → TypesStore → String → Option (List FieldDef)
  | 0, _, _ => none
  | fuel+1, ts, n =>
    match findType ts n with
    | none => some []
    | some row =>
      match row.parent_type with
      | none => some row.fields_schema
      | some p =>
        match get_resolved_fields_fuel fuel ts p with
        | none => none
        | some parentFields =>
          some ((parentFields.filter
              (fun f => !((row.fields_schema.map (fun g => g.name)).contains f.name)))
            ++ row.fields_schema)

/-- `get_resolved_fields(conn, type_name)`: merged field schema for a type,
inherited fields of ancestors first, the type's own fields last, own fields
overriding inherited ones of the same name. -/
def get_resolved_fields (ts : TypesStore) (n : String) : List FieldDef :=
  (get_resolved_fields_fuel (ts.length + 1) ts n).getD []

/-- Ref-field information kept by `get_ref_fields`. -/
structure RefInfo where
  ref_type : String
  multiple : Bool
  deriving DecidableEq, Repr

/-- `get_ref_fields(conn, type_name)`: the resolved fields of type `"ref"`,
as an ordered name-keyed map. -/
def get_ref_fields (ts : TypesStore) (tn : Option String) : List (String × RefInfo) :=
  match tn with
  | none => []
  | some n =>
    ((get_resolved_fields ts n).filter (fun f => f.ftype == "ref")).map
      (fun f => (f.name, ⟨f.ref_type, f.multiple⟩))

/-! ## db.py: `get_type_descendants`

The source recurses over children rows (`parent_type = name`) with no
visited set and no depth bound.  The fueled embedding returns `none` when
the recursion does not finish within the fuel: a run that yields `none`
for every fuel corresponds to a non-terminating run of the source. -/

mutual

def get_type_descendants_fuel : Nat → TypesStore → String → Option (List String)
  | 0, _, _ => none
  | fuel+1, ts, n =>
    match desc_children fuel ts ((ts.filter (fun t => t.parent_type == some n)).map (fun t => t.name)) with
    | none => none
    | some l => some (n :: l)

def desc_children : Nat → TypesStore → List String → Option (List String)
  | _, _, [] => some []
  | fuel, ts, c :: cs =>
    match get_type_descendants_fuel fuel ts c, desc_children fuel ts cs with
    | some l1, some l2 => some (l1 ++ l2)
    | _, _ => none

end

/-- `get_type_descendants(conn, type_name)` run with enough fuel for any
acyclic store (the chain of recursive calls then has depth at most the
number of types). -/
def get_type_descendants (ts : TypesStore) (n : String) : List String :=
  (get_type_descendants_fuel (ts.length + 1) ts n).getD [n]

/-! ## types_mod.py: `_check_circular_parent` and `cmd_type_set` -/

/-- The `while` loop of `_check_circular_parent`: walk up the parent chain
from `current`, returning `true` (an error) on revisiting a name already in
`visited`, `false` when the chain runs out.  The walk terminates because
every iteration adds a fresh store name to `visited`. -/
def check_circular_walk (ts : TypesStore) : Option String → List String → Bool
  | none, _ => false
  | some current, visited =>
    if current ∈ visited then true
    else
      match hf : findType ts current with
      | none => false
      | some row => check_circular_walk ts row.parent_type (current :: visited)
termination_by cur visited =>
  ((ts.map (fun t => t.name)).toFinset \ visited.toFinset).card
decreasing_by
  rename_i hv
  have hrowmem : row ∈ ts := List.mem_of_find?_eq_some hf
  have hrowname : row.name = current := by
    have := List.find?_some hf
    simpa using this
  have hname : current ∈ (ts.map (fun t => t.name)).toFinset := by
    refine List.mem_toFinset.mpr (List.mem_map.mpr ⟨row, hrowmem, hrowname⟩)
  have hcur : current ∈ (ts.map (fun t => t.name)).toFinset \ visited.toFinset := by
    refine Finset.mem_sdiff.mpr ⟨hname, by simpa using hv⟩
  have hins : (ts.map (fun t => t.name)).toFinset \ (current :: visited).toFinset
      = ((ts.map (fun t => t.name)).toFinset \ visited.toFinset).erase current := by
    ext b
    simp only [List.toFinset_cons, Finset.mem_sdiff, Finset.mem_insert, Finset.mem_erase]
    tauto
  rw [hins]
  exact Finset.card_erase_lt_of_mem hcur

/-- `_check_circular_parent(conn, type_name, new_parent)`: `true` means the
circular-reference error is reported. -/
def check_circular_parent (ts : TypesStore) (type_name new_parent : String) : Bool :=
  check_circular_walk ts (some new_parent) [type_name]

/-- Input of `cmd_type_set` (the parsed JSON argument). -/
structure TypeSetRequest where
  name : String
  display_name : String := ""
  description : String := ""
  parent_type : Option String := none
  abstract : Bool := false
  fields_schema : List FieldDef := []
  deriving Repr

/-- The `INSERT ... ON CONFLICT(name) DO UPDATE` of `cmd_type_set`. -/
def upsertType (ts : TypesStore) (req : TypeSetRequest) : TypesStore :=
  if ts.any (fun t => t.name == req.name) then
    ts.map (fun t =>
      if t.name == req.name then
        { name := t.name, display_name := req.display_name,
          description := req.description, parent_type := req.parent_type,
          abstract := req.abstract, fields_schema := req.fields_schema }
      else t)
  else
    ts ++ [{ name := req.name, display_name := req.display_name,
             description := req.description, parent_type := req.parent_type,
             abstract := req.abstract, fields_schema := req.fields_schema }]

/-- `cmd_type_set`: validate the parent, run the circular check only when the
named type already exists, then upsert.  Returns the resulting `types` table
and the reported status. -/
def cmd_type_set (ts : TypesStore) (req : TypeSetRequest) : TypesStore × Except Err String :=
  match req.parent_type with
  | none => (upsertType ts req, .ok req.name)
  | some p =>
    if ts.any (fun t => t.name == p) then
      if ts.any (fun t => t.name == req.name) then
        if check_circular_parent ts req.name p then (ts, .error .circularParent)
        else (upsertType ts req, .ok req.name)
      else (upsertType ts req, .ok req.name)
    else (ts, .error (.parentNotFound p))

/-- `a`'s parent chain reaches `b` in one or more steps. -/
inductive ReachesParent (ts : TypesStore) : String → String → Prop where
  | direct (a b : String) : parentOf ts a = some b → ReachesParent ts a b
  | step (a b c : String) : parentOf ts a = some b → ReachesParent ts b c → ReachesParent ts a c

/-- Referential well-formedness of the `types` table: names are unique (the
primary key) and every `parent_type` names an existing row (the foreign key,
maintained by `ON DELETE SET NULL`). -/
def typesWF (ts : TypesStore) : Prop :=
  (ts.map (fun t => t.name)).Nodup ∧
  ts.all (fun t =>
    match t.parent_type with
    | none => true
    | some p => (ts.map (fun u => u.name)).contains p) = true

/-! ## items_mod.py: validation, ref extraction, insert -/

/-- `_validate_type`: `none` for a valid (or absent) type, otherwise the
error message. -/
def validate_type (ts : TypesStore) (tn : Option String) : Option String :=
  match tn with
  | none => none
  | some n =>
    match findType ts n with
    | none => some ("Type not found: " ++ n)
    | some row => if row.abstract then some ("Type " ++ n ++ " is abstract") else none

/-- Python `int(v)` on a JSON value (`none` models the raised conversion
error). -/
def asInt : JVal → Option Int
  | .jnum n => some n
  | .jstr s => s.toInt?
  | .jbool b => some (if b then 1 else 0)
  | _ => none

/-- Convert the elements of a `multiple` ref list, skipping `null` entries;
`none` models the conversion error raised by `int`. -/
def idsOfList : List JVal → Option (List Int)
  | [] => some []
  | .jnull :: rest => idsOfList rest
  | v :: rest =>
    match asInt v, idsOfList rest with
    | some i, some r => some (i :: r)
    | _, _ => none

/-- The related ids produced for one ref field's payload value, following
`_extract_refs`: a `multiple` field takes them from a list value (a
non-list value yields none), a singular field takes the single value unless
it is `null`. -/
def valToIds (multiple : Bool) (v : JVal) : Option (List Int) :=
  if multiple then
    match v with
    | .jlist l => idsOfList l
    | _ => some []
  else
    match v with
    | .jnull => some []
    | v => (asInt v).map (fun i => [i])

/-- The loop of `_extract_refs` over the resolved ref fields: any field
present in the payload is popped, its relation tuples appended in field
order. -/
def extract_refs_core : List (String × RefInfo) → JObj → Option (JObj × List (Int × String))
  | [], d => some (d, [])
  | (fname, fi) :: rest, d =>
    match d.lookup fname with
    | none => extract_refs_core rest d
    | some v =>
      match valToIds fi.multiple v, extract_refs_core rest (jremove d fname) with
      | some ids, some (cleaned, rels) => some (cleaned, ids.map (fun i => (i, fname)) ++ rels)
      | _, _ => none

/-- `_extract_refs(conn, type_name, item_data)`; `none` models the raised
conversion error on a malformed ref value. -/
def extract_refs (ts : TypesStore) (tn : Option String) (d : JObj) :
    Option (JObj × List (Int × String)) :=
  match tn with
  | none => some (d, [])
  | some nm =>
    let rf := get_ref_fields ts (some nm)
    if rf.isEmpty then some (d, []) else extract_refs_core rf d

/-- `INSERT OR IGNORE INTO item_relations`: a duplicate primary key is
skipped, a foreign-key violation (either endpoint missing from `items`)
raises (`OR IGNORE` does not cover foreign keys). -/
def insertRelIgnore (itemsT : List Item) (relT : List Relation) (r : Relation) :
    Except Err (List Relation) :=
  if relT.contains r then .ok relT
  else if (itemsT.any (fun i => i.id == r.item_id))
      && (itemsT.any (fun i => i.id == r.related_item_id)) then
    .ok (relT ++ [r])
  else .error .storage

/-- `_save_relations(conn, item_id, relations, type_name)`: each field name
must be a resolved ref field of the type, then the edges are inserted. -/
def save_relations (ts : TypesStore) (itemsT : List Item) (relT : List Relation)
    (iid : Int) (rels : List (Int × String)) (tn : Option String) :
    Except Err (List Relation) :=
  match rels with
  | [] => .ok relT
  | (related_id, field_name) :: rest =>
    if ((get_ref_fields ts tn).lookup field_name).isSome then
      match insertRelIgnore itemsT relT ⟨iid, related_id, field_name⟩ with
      | .error e => .error e
      | .ok relT1 => save_relations ts itemsT relT1 iid rest tn
    else .error (.validation (field_name ++ " is not a ref field"))

/-- Input of `cmd_item_add` / one element of the batch input. -/
structure AddRequest where
  title : String
  type : Option String := none
  content : String := ""
  data : JObj := []
  parent_id : Option Int := none
  status : String := "active"
  deriving Repr

/-- `_insert_item(conn, data)`: validate the type, extract ref fields, insert
the row, save the relations.  An error leaves the state untouched (the
caller closes the connection without committing). -/
def insert_item (db : DB) (req : AddRequest) : Except Err (DB × Int) :=
  match validate_type db.types req.type with
  | some msg => .error (.validation msg)
  | none =>
    match extract_refs db.types req.type req.data with
    | none => .error (.validation "invalid ref value")
    | some (cleaned, rels) =>
      let iid := db.nextId
      let item : Item :=
        { id := iid, type := req.type, title := req.title, content := req.content,
          data := cleaned, parent_id := req.parent_id, status := req.status,
          created_at := db.now, updated_at := db.now }
      let items1 := db.items ++ [item]
      match save_relations db.types items1 db.relations iid rels req.type with
      | .error e => .error e
      | .ok relT1 =>
        .ok ({ db with items := items1, relations := relT1, nextId := iid + 1 }, iid)

/-- `cmd_item_add`: a single insert, committed on success, rolled back (state
unchanged) on error. -/
def cmd_item_add (db : DB) (req : AddRequest) : DB × Except Err Int :=
  match insert_item db req with
  | .error e => (db, .error e)
  | .ok (db1, iid) => (db1, .ok iid)

/-- The loop of `cmd_item_add_batch`: a failure anywhere returns the original
state (the single commit at the end is never reached). -/
def add_batch_go (db0 : DB) : DB → List Int → List AddRequest → DB × Except Err (List Int)
  | dbc, acc, [] => (dbc, .ok acc.reverse)
  | dbc, acc, r :: rs =>
    match insert_item dbc r with
    | .error e => (db0, .error e)
    | .ok (dbc1, iid) => add_batch_go db0 dbc1 (iid :: acc) rs

/-- `cmd_item_add_batch`. -/
def cmd_item_add_batch (db : DB) (reqs : List AddRequest) : DB × Except Err (List Int) :=
  add_batch_go db db [] reqs

/-! ## items_mod.py: enrichment and read path -/

/-- Keep-first deduplication keyed by `key`, with an accumulator of already
seen keys (models dict/set grouping order and SQL `DISTINCT` row order). -/
def dedupByAux {α β : Type} [DecidableEq β] (key : α → β) : List β → List α → List α
  | _, [] => []
  | seen, x :: xs =>
    if key x ∈ seen then dedupByAux key seen xs
    else x :: dedupByAux key (key x :: seen) xs

/-- Keep-first deduplication keyed by `key`. -/
def dedupBy {α β : Type} [DecidableEq β] (key : α → β) (l : List α) : List α :=
  dedupByAux key [] l

/-- The related ids grouped for `(item, field)` by `_enrich_items`, in table
order. -/
def relsForItem (relT : List Relation) (iid : Int) (fname : String) : List Int :=
  (relT.filter (fun r => r.item_id == iid && r.field_name == fname)).map
    (fun r => r.related_item_id)

/-- `_enrich_items` restricted to one item: overlay each related field onto
`data`, as a scalar (first id) or a list according to the declared
multiplicity (`False` when the field is not a resolved ref field). -/
def enrich_item (ts : TypesStore) (relT : List Relation) (it : Item) : Item :=
  let fnames := dedupBy (fun s => s)
    ((relT.filter (fun r => r.item_id == it.id)).map (fun r => r.field_name))
  let refFields := get_ref_fields ts it.type
  let data1 := fnames.foldl (fun d fname =>
    let ids := relsForItem relT it.id fname
    let multiple := match refFields.lookup fname with
      | some fi => fi.multiple
      | none => false
    let v : JVal :=
      if multiple then .jlist (ids.map (fun i => .jnum i))
      else match ids with
        | [] => .jnull
        | i :: _ => .jnum i
    jset d fname v) it.data
  { it with data := data1 }

/-- `cmd_item_get` (the `children` list, not needed by any claim, is left
out): fetch the row and enrich it. -/
def cmd_item_get (db : DB) (iid : Int) : Except Err Item :=
  match db.items.find? (fun it => it.id == iid) with
  | none => .error .notFound
  | some it => .ok (enrich_item db.types db.relations it)

/-! ## items_mod.py: update and delete -/

/-- Input of `cmd_item_update`: `some` marks a key present in the JSON
(whose value may itself be `null` for `type` and `parent_id`). -/
structure UpdateRequest where
  title : Option String := none
  content : Option String := none
  parent_id : Option (Option Int) := none
  status : Option String := none
  type : Option (Option String) := none
  data : Option JObj := none
  deriving Repr

/-- Apply the `SET` clauses of the final `UPDATE items` statement to a row. -/
def applyItemUpdate (upd : UpdateRequest) (now : Nat) (newData : Option JObj) (it : Item) : Item :=
  { it with
    title := upd.title.getD it.title
    content := upd.content.getD it.content
    parent_id := match upd.parent_id with | some p => p | none => it.parent_id
    status := upd.status.getD it.status
    type := match upd.type with | some t => t | none => it.type
    data := newData.getD it.data
    updated_at := now }

/-- The effective type name of an update: the updated type when the payload
sets one, otherwise the stored type of the item (or none). -/
def effective_type_name (db : DB) (iid : Int) (upd : UpdateRequest) : Option String :=
  match upd.type.bind (fun t => t) with
  | some t => some t
  | none => (db.items.find? (fun it => it.id == iid)).bind (fun it => it.type)

/-- The merged `data` payload stored by an update: the extracted non-ref
keys overlaid on the stored payload (`dict.update`). -/
def merged_data (db : DB) (iid : Int) (ref_data : JObj) : JObj :=
  match db.items.find? (fun it => it.id == iid) with
  | some it => dictUpdate it.data ref_data
  | none => ref_data

/-- The ref fields whose edge sets an update replaces: those yielding new
relation tuples plus those of the payload's keys that are resolved ref
fields. -/
def touched_fields (ts : TypesStore) (tn : Option String)
    (rels : List (Int × String)) (d : JObj) : List String :=
  dedupBy (fun s => s)
    (rels.map (fun r => r.2) ++
      ((get_ref_fields ts tn).map (fun f => f.1)).filter
        (fun f => (List.lookup f d).isSome))

/-- The edge table after the update deletes the touched fields' edges. -/
def relations_after_delete (db : DB) (iid : Int) (touched : List String) : List Relation :=
  db.relations.filter
    (fun r => !(r.item_id == iid && touched.contains r.field_name))

/-- The body of `cmd_item_update` past the type validation: compute the
effective type name, extract ref fields from the `data` payload, merge the
remaining keys over the stored payload, replace the edge sets of the
touched ref fields, and apply the row update.  An error leaves the state
unchanged. -/
def cmd_item_update_body (db : DB) (iid : Int) (upd : UpdateRequest) : DB × Except Err Int :=
  let type_name := effective_type_name db iid upd
  match upd.data with
  | none =>
    if upd.title.isSome || upd.content.isSome || upd.parent_id.isSome
        || upd.status.isSome || upd.type.isSome then
      ({ db with items := db.items.map (fun it =>
          if it.id == iid then applyItemUpdate upd db.now none it else it) }, .ok iid)
    else (db, .error .noValidFields)
  | some d =>
    match extract_refs db.types type_name d with
    | none => (db, .error (.validation "invalid ref value"))
    | some (ref_data, rels) =>
      let relT1 := relations_after_delete db iid (touched_fields db.types type_name rels d)
      match save_relations db.types db.items relT1 iid rels type_name with
      | .error e => (db, .error e)
      | .ok relT2 =>
        ({ db with
            items := db.items.map (fun it =>
              if it.id == iid then
                applyItemUpdate upd db.now (some (merged_data db iid ref_data)) it
              else it),
            relations := relT2 }, .ok iid)

/-- `cmd_item_update`: validate an updated type, then run the body. -/
def cmd_item_update (db : DB) (iid : Int) (upd : UpdateRequest) : DB × Except Err Int :=
  match upd.type.bind (fun tn => validate_type db.types tn) with
  | some msg => (db, .error (.validation msg))
  | none => cmd_item_update_body db iid upd

/-- `cmd_item_delete`: hard delete; the edge table cascades on both
endpoints, children have `parent_id` set to null. -/
def cmd_item_delete (db : DB) (iid : Int) : DB × Int :=
  ({ db with
      items := (db.items.filter (fun it => !(it.id == iid))).map
        (fun it => if it.parent_id == some iid then { it with parent_id := none } else it),
      relations := db.relations.filter
        (fun r => !(r.item_id == iid || r.related_item_id == iid)) },
   iid)

/-- Referential integrity of the edge table: both endpoints of every edge
name existing items. -/
def rel_integrity (db : DB) : Bool :=
  db.relations.all (fun r =>
    db.items.any (fun i => i.id == r.item_id)
    && db.items.any (fun j => j.id == r.related_item_id))

/-! ## items_mod.py: fallback search (`_search_items_like`)

SQLite's `LIKE` is case-insensitive for ASCII letters; `'%kw%'` matches a
substring.  The `data` column is matched against its serialized JSON
text. -/

/-- ASCII lower-casing, as applied by SQLite `LIKE`. -/
def asciiLowerChar (c : Char) : Char :=
  if ('A' ≤ c ∧ c ≤ 'Z') then Char.ofNat (c.toNat + 32) else c

/-- Whether `pat` starts the list `hay`. -/
def listStartsWith : List Char → List Char → Bool
  | [], _ => true
  | _ :: _, [] => false
  | p :: ps, h :: hs => p == h && listStartsWith ps hs

/-- Whether `pat` occurs as a contiguous sublist of `hay`. -/
def listContainsSub (pat : List Char) : List Char → Bool
  | [] => listStartsWith pat []
  | h :: hs => listStartsWith pat (h :: hs) || listContainsSub pat hs

/-- `column LIKE '%keyword%'` (ASCII case-insensitive substring). -/
def likeMatch (keyword hay : String) : Bool :=
  listContainsSub (keyword.toList.map asciiLowerChar) (hay.toList.map asciiLowerChar)

mutual

/-- Serialization of a JSON value as `json.dumps` renders it. -/
def jvalStr : JVal → String
  | .jnum n => toString n
  | .jstr s => "\"" ++ s ++ "\""
  | .jbool b => if b then "true" else "false"
  | .jnull => "null"
  | .jlist l => "[" ++ jvalListStr l ++ "]"

/-- Comma-separated serialization of a list of JSON values. -/
def jvalListStr : List JVal → String
  | [] => ""
  | [v] => jvalStr v
  | v :: rest => jvalStr v ++ ", " ++ jvalListStr rest

end

/-- Serialization of a `data` payload as stored in the `data` column. -/
def jobjStr (o : JObj) : String :=
  "\x7b" ++ String.intercalate ", "
    (o.map (fun kv => "\"" ++ kv.1 ++ "\": " ++ jvalStr kv.2)) ++ "\x7d"

/-- The `WHERE` text condition of the fallback queries:
`title LIKE ? OR content LIKE ? OR data LIKE ?`. -/
def itemMatches (kw : String) (it : Item) : Bool :=
  likeMatch kw it.title || likeMatch kw it.content || likeMatch kw (jobjStr it.data)

/-- Stable insertion into a list sorted by `created_at` descending. -/
def insertDesc (x : Item) : List Item → List Item
  | [] => [x]
  | y :: ys => if x.created_at ≥ y.created_at then x :: y :: ys else y :: insertDesc x ys

/-- `ORDER BY created_at DESC` (the default order of the fallback search). -/
def sortDesc : List Item → List Item
  | [] => []
  | x :: xs => insertDesc x (sortDesc xs)

/-- The rows of the direct fallback query, before `LIMIT`: text matches in
`created_at`-descending order. -/
def direct_matches (itemsT : List Item) (kw : String) : List Item :=
  sortDesc (itemsT.filter (fun i => itemMatches kw i))

/-- One edge's contribution to the relation query: the source row, provided
both endpoints join against `items` and the target matches the keyword. -/
def relPick (itemsT : List Item) (kw : String) (r : Relation) : Option Item :=
  match itemsT.find? (fun i => i.id == r.item_id),
        itemsT.find? (fun i => i.id == r.related_item_id) with
  | some i, some rel => if itemMatches kw rel then some i else none
  | _, _ => none

/-- The rows of the relation query, before `LIMIT`: the source item of every
edge whose target matches the keyword, both endpoints joined against
`items`, `DISTINCT` keeping the first row per item. -/
def relatedCandidates (itemsT : List Item) (relT : List Relation) (kw : String) : List Item :=
  dedupBy (fun i => i.id) (relT.filterMap (relPick itemsT kw))

/-- Variants of the two queries under a polymorphic type filter. -/
def typeFilterHit (tns : List String) (it : Item) : Bool :=
  match it.type with
  | some t => tns.contains t
  | none => false

/-- `_search_items_like(conn, keyword, type_names, filters)` with no extra
structured co-filters: direct matches first (ordered, limited), then
relation-sourced matches not already listed, the merge truncated to the
limit. -/
def search_items_like (itemsT : List Item) (relT : List Relation) (kw : String)
    (typeNames : Option (List String)) (lim : Nat) : List Item :=
  match typeNames with
  | some tns =>
    let direct := (sortDesc ((itemsT.filter (typeFilterHit tns)).filter
      (fun i => itemMatches kw i))).take lim
    let directIds := direct.map (fun i => i.id)
    let related := ((relatedCandidates itemsT relT kw).filter (typeFilterHit tns)).take lim
    (direct ++ related.filter (fun r => !(directIds.contains r.id))).take lim
  | none =>
    let direct := (direct_matches itemsT kw).take lim
    let directIds := direct.map (fun i => i.id)
    let related := (relatedCandidates itemsT relT kw).take lim
    (direct ++ related.filter (fun r => !(directIds.contains r.id))).take lim

/-- `cmd_item_search` when the FTS index is unavailable or returned no rows:
the fallback scan feeds the enrichment pass. -/
def cmd_item_search_nofts (db : DB) (kw : String) (typeFilter : Option String)
    (lim : Nat) : List Item :=
  let typeNames := typeFilter.map (fun t => get_type_descendants db.types t)
  (search_items_like db.items db.relations kw typeNames lim).map
    (enrich_item db.types db.relations)

/-! ## Claim C1: inheritance-aware field resolution -/

/-- Unfolding of the fueled resolver along a concrete three-level chain
`C → B → A` (`A` a root): three units of fuel always suffice. -/
theorem get_resolved_fields_fuel_chain (k : Nat) (ts : TypesStore) (C B A : String)
    (rowC rowB rowA : TypeRow)
    (hC : findType ts C = some rowC) (hpC : rowC.parent_type = some B)
    (hB : findType ts B = some rowB) (hpB : rowB.parent_type = some A)
    (hA : findType ts A = some rowA) (hpA : rowA.parent_type = none) :
    get_resolved_fields_fuel (k + 3) ts C =
      some ((((rowA.fields_schema.filter
          (fun f => !((rowB.fields_schema.map (fun g => g.name)).contains f.name))).filter
          (fun f => !((rowC.fields_schema.map (fun g => g.name)).contains f.name)))
        ++ rowB.fields_schema.filter
          (fun f => !((rowC.fields_schema.map (fun g => g.name)).contains f.name)))
        ++ rowC.fields_schema) := by
  show get_resolved_fields_fuel (k + 1 + 1 + 1) ts C = _
  simp only [get_resolved_fields_fuel, hC, hpC, hB, hpB, hA, hpA, List.filter_append]

/-- A list containing three elements with pairwise distinct names has length
at least three. -/
theorem three_le_length_of_mem (ts : TypesStore) (C B A : String)
    (hC : C ∈ ts.map (fun t => t.name)) (hB : B ∈ ts.map (fun t => t.name))
    (hA : A ∈ ts.map (fun t => t.name))
    (hCB : C ≠ B) (hBA : B ≠ A) (hCA : C ≠ A) : 3 ≤ ts.length := by
  have hsub : ({C, B, A} : Finset String) ⊆ (ts.map (fun t => t.name)).toFinset := by
    intro x hx
    simp only [Finset.mem_insert, Finset.mem_singleton] at hx
    rcases hx with rfl | rfl | rfl <;> exact List.mem_toFinset.mpr (by assumption)
  have hcard : ({C, B, A} : Finset String).card = 3 := by
    rw [Finset.card_insert_of_not_mem (by simp [hCB, hCA]),
        Finset.card_insert_of_not_mem (by simp [hBA]), Finset.card_singleton]
  have h1 := Finset.card_le_card hsub
  have h2 := (ts.map (fun t => t.name)).toFinset_card_le
  rw [hcard] at h1
  simpa using h1.trans h2

/-- Membership of a found row's name in the name column. -/
theorem findType_name_mem (ts : TypesStore) (n : String) (row : TypeRow)
    (h : findType ts n = some row) : row ∈ ts ∧ row.name = n := by
  refine ⟨List.mem_of_find?_eq_some h, ?_⟩
  have := List.find?_some h
  simpa using this

/-- C1: for every type `C` whose parent is `B` whose parent is the root `A`,
`get_resolved_fields` returns the fields of `A` not redeclared below, then
the fields of `B` not redeclared by `C`, then `C`'s own fields in their
declared order; any field whose name `C` redeclares comes verbatim from
`C`'s own declaration list (the entire declaration, not an attribute
merge). -/
theorem c1_inheritance_resolution (ts : TypesStore) (C B A : String)
    (rowC rowB rowA : TypeRow)
    (hC : findType ts C = some rowC) (hpC : rowC.parent_type = some B)
    (hB : findType ts B = some rowB) (hpB : rowB.parent_type = some A)
    (hA : findType ts A = some rowA) (hpA : rowA.parent_type = none)
    (hCB : C ≠ B) (hBA : B ≠ A) (hCA : C ≠ A) :
    get_resolved_fields ts C =
      (((rowA.fields_schema.filter
          (fun f => !((rowB.fields_schema.map (fun g => g.name)).contains f.name))).filter
          (fun f => !((rowC.fields_schema.map (fun g => g.name)).contains f.name)))
        ++ rowB.fields_schema.filter
          (fun f => !((rowC.fields_schema.map (fun g => g.name)).contains f.name)))
        ++ rowC.fields_schema
      ∧ ∀ g ∈ get_resolved_fields ts C,
          g.name ∈ rowC.fields_schema.map (fun f => f.name) → g ∈ rowC.fields_schema := by
  obtain ⟨hmC, hnC⟩ := findType_name_mem ts C rowC hC
  obtain ⟨hmB, hnB⟩ := findType_name_mem ts B rowB hB
  obtain ⟨hmA, hnA⟩ := findType_name_mem ts A rowA hA
  have hlen : 3 ≤ ts.length := by
    refine three_le_length_of_mem ts C B A ?_ ?_ ?_ hCB hBA hCA
    · exact List.mem_map.mpr ⟨rowC, hmC, hnC⟩
    · exact List.mem_map.mpr ⟨rowB, hmB, hnB⟩
    · exact List.mem_map.mpr ⟨rowA, hmA, hnA⟩
  obtain ⟨k, hk⟩ : ∃ k, ts.length + 1 = k + 3 := ⟨ts.length - 2, by omega⟩
  have heq : get_resolved_fields ts C =
      (((rowA.fields_schema.filter
          (fun f => !((rowB.fields_schema.map (fun g => g.name)).contains f.name))).filter
          (fun f => !((rowC.fields_schema.map (fun g => g.name)).contains f.name)))
        ++ rowB.fields_schema.filter
          (fun f => !((rowC.fields_schema.map (fun g => g.name)).contains f.name)))
        ++ rowC.fields_schema := by
    rw [get_resolved_fields, hk,
      get_resolved_fields_fuel_chain k ts C B A rowC rowB rowA hC hpC hB hpB hA hpA]
    rfl
  refine ⟨heq, ?_⟩
  intro g hg hgname
  rw [heq] at hg
  rcases List.mem_append.mp hg with hg1 | hg2
  · exfalso
    rcases List.mem_append.mp hg1 with hga | hgb
    · have h2 := (List.mem_filter.mp hga).2
      simp at h2
      obtain ⟨a, ha, hae⟩ : ∃ a ∈ rowC.fields_schema, a.name = g.name := by
        simpa using hgname
      exact h2 a ha hae
    · have h2 := (List.mem_filter.mp hgb).2
      simp at h2
      obtain ⟨a, ha, hae⟩ : ∃ a ∈ rowC.fields_schema, a.name = g.name := by
        simpa using hgname
      exact h2 a ha hae
  · exact hg2

/-- Concrete instance for C1: store with `A` declaring `x`,`y`, `B`
redeclaring `y`, `C` redeclaring `x`. -/
def c1ts : TypesStore :=
  [ { name := "A", fields_schema := [⟨"x", "string", "", false, "ax"⟩, ⟨"y", "string", "", false, "ay"⟩] },
    { name := "B", parent_type := some "A", fields_schema := [⟨"y", "date", "", false, "by"⟩] },
    { name := "C", parent_type := some "B", fields_schema := [⟨"x", "ref", "A", true, "cx"⟩] } ]

/-- C1 witness: the theorem applied to the concrete store, every hypothesis
discharged by evaluation; the resolved list is `B`'s `y` override followed by
`C`'s full `x` declaration. -/
theorem c1_inheritance_resolution_witness :
    get_resolved_fields c1ts "C" =
      [⟨"y", "date", "", false, "by"⟩, ⟨"x", "ref", "A", true, "cx"⟩] := by
  have h := c1_inheritance_resolution c1ts "C" "B" "A"
    { name := "C", parent_type := some "B", fields_schema := [⟨"x", "ref", "A", true, "cx"⟩] }
    { name := "B", parent_type := some "A", fields_schema := [⟨"y", "date", "", false, "by"⟩] }
    { name := "A", fields_schema := [⟨"x", "string", "", false, "ax"⟩, ⟨"y", "string", "", false, "ay"⟩] }
    (by rfl) (by rfl) (by rfl) (by rfl) (by rfl) (by rfl)
    (by decide) (by decide) (by decide)
  rw [h.1]
  rfl

/-! ## Claim C4: the subtree resolver has no defensive cycle guard -/

/-- A corrupted `types` table whose `parent_type` edges form a two-cycle. -/
def c4cyc : TypesStore :=
  [ { name := "A", parent_type := some "B" }, { name := "B", parent_type := some "A" } ]

/-- On the cyclic store, the recursion of `get_type_descendants` never
completes from either root, whatever the depth allowance. -/
theorem c4_descendants_diverges_aux : ∀ fuel,
    get_type_descendants_fuel fuel c4cyc "A" = none ∧
    get_type_descendants_fuel fuel c4cyc "B" = none := by
  intro fuel
  induction fuel with
  | zero =>
    constructor
    · rw [get_type_descendants_fuel]
    · rw [get_type_descendants_fuel]
  | succ n ih =>
    have hA : (c4cyc.filter (fun t => t.parent_type == some "A")).map (fun t => t.name)
        = ["B"] := by rfl
    have hB : (c4cyc.filter (fun t => t.parent_type == some "B")).map (fun t => t.name)
        = ["A"] := by rfl
    have h2A : desc_children n c4cyc ["B"] = none := by
      rw [desc_children, ih.2]
    have h2B : desc_children n c4cyc ["A"] = none := by
      rw [desc_children, ih.1]
    constructor
    · rw [get_type_descendants_fuel, hA, h2A]
    · rw [get_type_descendants_fuel, hB, h2B]

/-- C4: contrary to the claim, `get_type_descendants` carries no depth or
visited-set bound: on the corrupted store whose `parent_type` edges form a
cycle, the recursion started at `"A"` fails to complete within any fuel
bound, i.e. the source function does not terminate there. -/
theorem c4_descendants_no_guard :
    ∀ fuel, get_type_descendants_fuel fuel c4cyc "A" = none :=
  fun fuel => (c4_descendants_diverges_aux fuel).1

/-! ## Claim C3: circular parent chains are rejected -/

/-- On a well-formed store, a recorded parent name is a store name. -/
theorem wf_parent_mem (ts : TypesStore) (hwf : typesWF ts) (a p : String)
    (h : parentOf ts a = some p) : p ∈ ts.map (fun t => t.name) := by
  unfold parentOf at h
  cases hf : findType ts a with
  | none => rw [hf] at h; cases h
  | some row =>
    rw [hf] at h
    simp at h
    have hrow : row ∈ ts := List.mem_of_find?_eq_some hf
    have hall := (List.all_eq_true.mp hwf.2) row hrow
    rw [h] at hall
    simpa using hall

/-- An absent name yields no row. -/
theorem findType_eq_none_of_any_false (ts : TypesStore) (p : String)
    (h : ts.any (fun t => t.name == p) = false) : findType ts p = none := by
  rw [findType, List.find?_eq_none]
  intro t ht
  have := List.any_eq_false.mp h t ht
  simpa using this

/-- `find?` over a name-preserving row map. -/
theorem findType_map_keep_name (ts : TypesStore) (f : TypeRow → TypeRow)
    (hf : ∀ t, (f t).name = t.name) (a : String) :
    findType (ts.map f) a = (findType ts a).map f := by
  induction ts with
  | nil => rfl
  | cons t rest ih =>
    by_cases hb : (t.name == a) = true
    · have hfb : ((f t).name == a) = true := by rw [hf]; exact hb
      simp only [List.map_cons, findType, List.find?, hfb, hb]
      rfl
    · have hfb : ((f t).name == a) = false := by
        rw [hf]; exact (by simpa using hb)
      simp only [List.map_cons, findType, List.find?, hfb, hb]
      exact ih

/-- The row-rewriting function applied by the update branch of the upsert. -/
def upsertRowFn (req : TypeSetRequest) (t : TypeRow) : TypeRow :=
  if t.name == req.name then
    { name := t.name, display_name := req.display_name,
      description := req.description, parent_type := req.parent_type,
      abstract := req.abstract, fields_schema := req.fields_schema }
  else t

/-- The upsert's row function preserves row names. -/
theorem upsertRowFn_name (req : TypeSetRequest) (t : TypeRow) :
    (upsertRowFn req t).name = t.name := by
  rw [upsertRowFn]
  by_cases hb : (t.name == req.name) = true
  · rw [if_pos hb]
  · rw [if_neg (by simpa using hb)]

/-- The upsert as a map or an append, in terms of `upsertRowFn`. -/
theorem upsertType_eq (ts : TypesStore) (req : TypeSetRequest) :
    upsertType ts req =
      if ts.any (fun t => t.name == req.name) then ts.map (upsertRowFn req)
      else ts ++ [{ name := req.name, display_name := req.display_name,
                    description := req.description, parent_type := req.parent_type,
                    abstract := req.abstract, fields_schema := req.fields_schema }] := rfl

/-- After the upsert, the upserted name's parent is the requested parent. -/
theorem parentOf_upsert (ts : TypesStore) (req : TypeSetRequest) :
    parentOf (upsertType ts req) req.name = req.parent_type := by
  rw [upsertType_eq]
  by_cases hany : ts.any (fun t => t.name == req.name) = true
  · rw [if_pos hany]
    obtain ⟨u, hu, hub⟩ := List.any_eq_true.mp hany
    have hsome : (findType ts req.name).isSome :=
      List.find?_isSome.mpr ⟨u, hu, hub⟩
    obtain ⟨r, hr⟩ := Option.isSome_iff_exists.mp hsome
    have hrname : r.name = req.name := (findType_name_mem ts req.name r hr).2
    rw [parentOf, findType_map_keep_name ts _ (upsertRowFn_name req) req.name, hr]
    have : upsertRowFn req r = { name := r.name, display_name := req.display_name,
                                 description := req.description, parent_type := req.parent_type,
                                 abstract := req.abstract, fields_schema := req.fields_schema } := by
      rw [upsertRowFn, if_pos (by simpa using hrname)]
    simp [this]
  · rw [if_neg hany]
    have hnone : findType ts req.name = none :=
      findType_eq_none_of_any_false ts req.name (by simpa using hany)
    rw [findType] at hnone
    simp only [parentOf, findType, List.find?_append, hnone]
    simp [List.find?]

/-- The upsert does not disturb rows with other names. -/
theorem parentOf_upsert_other (ts : TypesStore) (req : TypeSetRequest)
    (a : String) (ha : a ≠ req.name) :
    parentOf (upsertType ts req) a = parentOf ts a := by
  rw [upsertType_eq]
  by_cases hany : ts.any (fun t => t.name == req.name) = true
  · rw [if_pos hany]
    rw [parentOf, findType_map_keep_name ts _ (upsertRowFn_name req) a, parentOf]
    cases hr : findType ts a with
    | none => rfl
    | some r =>
      have hrname : r.name = a := (findType_name_mem ts a r hr).2
      have hne : (upsertRowFn req r) = r := by
        rw [upsertRowFn, if_neg]
        simp only [hrname]
        simpa using ha
      simp [hne]
  · rw [if_neg hany]
    have h2 : List.find? (fun t => t.name == a)
        [({ name := req.name, display_name := req.display_name,
            description := req.description, parent_type := req.parent_type,
            abstract := req.abstract, fields_schema := req.fields_schema } : TypeRow)]
          = none := by
      simp only [List.find?]
      have : (req.name == a) = false := by simpa using (Ne.symm ha)
      simp [this]
    simp only [parentOf, findType, List.find?_append, h2]
    cases List.find? (fun t => t.name == a) ts <;> rfl

/-- One-step unfolding of the circular-check walk. -/
theorem check_circular_walk_some (ts : TypesStore) (a : String) (visited : List String) :
    check_circular_walk ts (some a) visited =
      if a ∈ visited then true
      else match findType ts a with
        | none => false
        | some row => check_circular_walk ts row.parent_type (a :: visited) := by
  rw [check_circular_walk]
  by_cases hv : a ∈ visited
  · simp [hv]
  · rw [if_neg hv, if_neg hv]
    cases hf : findType ts a with
    | none => simp [hf]
    | some row => simp [hf]

/-- The circular-check walk reports an error whenever the parent chain from
the start reaches a name in the visited set. -/
theorem check_circular_walk_of_reaches (ts : TypesStore) (name : String) :
    ∀ cur visited, ReachesParent ts cur name → name ∈ visited →
      check_circular_walk ts (some cur) visited = true := by
  intro cur visited h
  induction h generalizing visited with
  | direct a b hab =>
    intro hmem
    rw [check_circular_walk_some]
    by_cases hav : a ∈ visited
    · simp [hav]
    · rw [if_neg hav]
      rw [parentOf] at hab
      cases hf : findType ts a with
      | none => rw [hf] at hab; cases hab
      | some row =>
        rw [hf] at hab
        simp at hab
        simp only [hf]
        rw [hab, check_circular_walk_some, if_pos (List.mem_cons_of_mem a hmem)]
  | step a b c hab hbc ih =>
    intro hmem
    rw [check_circular_walk_some]
    by_cases hav : a ∈ visited
    · simp [hav]
    · rw [if_neg hav]
      rw [parentOf] at hab
      cases hf : findType ts a with
      | none => rw [hf] at hab; cases hab
      | some row =>
        rw [hf] at hab
        simp at hab
        simp only [hf]
        rw [hab]
        exact ih (a :: visited) (List.mem_cons_of_mem a hmem)

/-- Every chain of the upserted store that ends at the upserted name and
starts elsewhere is already a chain of the old store. -/
theorem reaches_upsert_to_old (ts : TypesStore) (req : TypeSetRequest) :
    ∀ a n, ReachesParent (upsertType ts req) a n → n = req.name → a ≠ req.name →
      ReachesParent ts a n := by
  intro a n h
  induction h with
  | direct u v huv =>
    intro _ hu
    exact ReachesParent.direct u v ((parentOf_upsert_other ts req u hu) ▸ huv)
  | step u v w huv hvw ih =>
    intro hn hu
    subst hn
    have h2 : parentOf ts u = some v := (parentOf_upsert_other ts req u hu) ▸ huv
    by_cases hveq : v = req.name
    · exact ReachesParent.direct u req.name (hveq ▸ h2)
    · exact ReachesParent.step u v req.name h2 (ih rfl hveq)

/-- Inserting a brand-new type cannot close a cycle: on a well-formed store
no chain of the upserted store starting at an old name reaches the new
name. -/
theorem no_cycle_new_type (ts : TypesStore) (req : TypeSetRequest)
    (hwf : typesWF ts) (hnew : req.name ∉ ts.map (fun t => t.name)) :
    ∀ a n, ReachesParent (upsertType ts req) a n → n = req.name →
      a ∈ ts.map (fun t => t.name) → False := by
  intro a n h
  induction h with
  | direct u v huv =>
    intro hn hmem
    subst hn
    have hane : u ≠ req.name := fun he => hnew (he ▸ hmem)
    have h2 : parentOf ts u = some req.name :=
      (parentOf_upsert_other ts req u hane) ▸ huv
    exact hnew (wf_parent_mem ts hwf u req.name h2)
  | step u v w huv hvw ih =>
    intro hn hmem
    subst hn
    have hane : u ≠ req.name := fun he => hnew (he ▸ hmem)
    have h2 : parentOf ts u = some v :=
      (parentOf_upsert_other ts req u hane) ▸ huv
    exact ih rfl (wf_parent_mem ts hwf u v h2)

/-- C3 (amended): on a well-formed store, every type-definition request
whose parent assignment would make the defined type's parent chain cyclic
fails and leaves the `types` table unchanged; the error is the
circular-parent (SchemaIntegrityError) one whenever the defined type
already exists, while a fresh self-parented definition fails with the
parent-not-found error instead. -/
theorem c3_cycle_rejection (ts : TypesStore) (req : TypeSetRequest)
    (hwf : typesWF ts)
    (hcyc : ReachesParent (upsertType ts req) req.name req.name) :
    ((cmd_type_set ts req).1 = ts ∧ ∃ e, (cmd_type_set ts req).2 = Except.error e)
    ∧ (req.name ∈ ts.map (fun t => t.name) →
        (cmd_type_set ts req).2 = Except.error Err.circularParent) := by
  have hfirst : ∃ b, req.parent_type = some b ∧
      (b = req.name ∨ ReachesParent (upsertType ts req) b req.name) := by
    cases hcyc with
    | direct a b hab =>
      rw [parentOf_upsert] at hab
      exact ⟨req.name, hab, Or.inl rfl⟩
    | step a b c hab hbc =>
      rw [parentOf_upsert] at hab
      exact ⟨b, hab, Or.inr hbc⟩
  obtain ⟨b, hb, hbrest⟩ := hfirst
  simp only [cmd_type_set, hb]
  by_cases hp : ts.any (fun t => t.name == b) = true
  · rw [if_pos hp]
    by_cases hn : ts.any (fun t => t.name == req.name) = true
    · rw [if_pos hn]
      have hcheck : check_circular_parent ts req.name b = true := by
        rw [check_circular_parent]
        by_cases hbn : b = req.name
        · rw [hbn, check_circular_walk_some,
            if_pos (List.mem_singleton.mpr rfl)]
        · rcases hbrest with heq | hreach
          · exact absurd heq hbn
          · have hold : ReachesParent ts b req.name :=
              reaches_upsert_to_old ts req b req.name hreach rfl hbn
            exact check_circular_walk_of_reaches ts req.name b [req.name] hold
              (List.mem_singleton.mpr rfl)
      rw [if_pos hcheck]
      exact ⟨⟨rfl, ⟨Err.circularParent, rfl⟩⟩, fun _ => rfl⟩
    · exfalso
      have hnnot : req.name ∉ ts.map (fun t => t.name) := by
        intro hmem
        obtain ⟨u, hu, hue⟩ := List.mem_map.mp hmem
        exact hn (List.any_eq_true.mpr ⟨u, hu, by simp [hue]⟩)
      have hbmem : b ∈ ts.map (fun t => t.name) := by
        obtain ⟨u, hu, hub⟩ := List.any_eq_true.mp hp
        exact List.mem_map.mpr ⟨u, hu, by simpa using hub⟩
      rcases hbrest with heq | hreach
      · exact hnnot (heq ▸ hbmem)
      · exact no_cycle_new_type ts req hwf hnnot b req.name hreach rfl hbmem
  · rw [if_neg hp]
    constructor
    · exact ⟨rfl, ⟨Err.parentNotFound b, rfl⟩⟩
    · intro hmem
      exfalso
      have hbnot : b ∉ ts.map (fun t => t.name) := by
        intro hbm
        obtain ⟨u, hu, hue⟩ := List.mem_map.mp hbm
        exact hp (List.any_eq_true.mpr ⟨u, hu, by simp [hue]⟩)
      have hbne : b ≠ req.name := fun he => hbnot (he ▸ hmem)
      have hnone : parentOf ts b = none := by
        rw [parentOf, findType, List.find?_eq_none.mpr ?_]
        · rfl
        · intro t ht hbeq
          exact hbnot (List.mem_map.mpr ⟨t, ht, by simpa using hbeq⟩)
      rcases hbrest with heq | hreach
      · rw [heq] at hbnot
        exact hbnot hmem
      · cases hreach with
        | direct u v huv =>
          rw [parentOf_upsert_other ts req b hbne, hnone] at huv
          cases huv
        | step u v w huv hvw =>
          rw [parentOf_upsert_other ts req b hbne, hnone] at huv
          cases huv

/-- The empty-store self-parent request used as the C3 counterexample. -/
def c3reqXX : TypeSetRequest := { name := "X", parent_type := some "X" }

/-- C3 counterexample: on the empty store, defining a fresh type `X` with
itself as parent is a cyclic request, yet the code reports the
parent-not-found error rather than the circular-parent
(SchemaIntegrityError) one; the table is left unchanged. -/
theorem c3_cycle_rejection_counterexample :
    ReachesParent (upsertType [] c3reqXX) "X" "X"
    ∧ (cmd_type_set [] c3reqXX).2 = Except.error (Err.parentNotFound "X")
    ∧ (cmd_type_set [] c3reqXX).2 ≠ Except.error Err.circularParent
    ∧ (cmd_type_set [] c3reqXX).1 = [] := by
  refine ⟨ReachesParent.direct "X" "X" (by rfl), by rfl, ?_, by rfl⟩
  intro h
  rw [show (cmd_type_set [] c3reqXX).2 = Except.error (Err.parentNotFound "X") from rfl] at h
  cases h

/-- The two-type store and re-parenting request used as the C3 witness. -/
def c3ts2 : TypesStore := [{ name := "A" }, { name := "B", parent_type := some "A" }]

/-- The C3 witness request: update existing type `A` to have parent `B`. -/
def c3reqA : TypeSetRequest := { name := "A", parent_type := some "B" }

/-- C3 witness: re-parenting `A` under its own child `B` is rejected with the
circular-parent error and the table is unchanged. -/
theorem c3_cycle_rejection_witness :
    (cmd_type_set c3ts2 c3reqA).1 = c3ts2
    ∧ (cmd_type_set c3ts2 c3reqA).2 = Except.error Err.circularParent := by
  have hwf : typesWF c3ts2 := by
    constructor
    · decide
    · rfl
  have hcyc : ReachesParent (upsertType c3ts2 c3reqA) "A" "A" := by
    refine ReachesParent.step "A" "B" "A" (by rfl) (ReachesParent.direct "B" "A" (by rfl))
  have h := c3_cycle_rejection c3ts2 c3reqA hwf hcyc
  exact ⟨h.1.1, h.2 (by decide)⟩

/-! ## Claim C5: unknown or abstract types are rejected before any write -/

/-- Under the invalid-type hypothesis (the name is absent, or its row is
abstract), `_validate_type` reports an error. -/
theorem validate_type_invalid (ts : TypesStore) (n : String)
    (hinv : ∀ r, findType ts n = some r → r.abstract = true) :
    ∃ msg, validate_type ts (some n) = some msg := by
  rw [validate_type]
  cases hf : findType ts n with
  | none => simp
  | some row => simp [hinv row hf]

/-- Inserting an item never changes the `types` table. -/
theorem insert_item_types (db : DB) (req : AddRequest) (db1 : DB) (iid : Int)
    (h : insert_item db req = Except.ok (db1, iid)) : db1.types = db.types := by
  simp only [insert_item] at h
  split at h
  · cases h
  · split at h
    · cases h
    · split at h
      · cases h
      · cases h
        rfl

/-- A batch whose tail contains a request that fails on every state sharing
the original `types` table leaves the state at the original database. -/
theorem add_batch_go_fail (db0 : DB) (req : AddRequest) (post : List AddRequest)
    (hfail : ∀ dbc : DB, dbc.types = db0.types →
      ∃ e, insert_item dbc req = Except.error e) :
    ∀ pre (dbc : DB) acc, dbc.types = db0.types →
      (add_batch_go db0 dbc acc (pre ++ req :: post)).1 = db0 := by
  intro pre
  induction pre with
  | nil =>
    intro dbc acc hty
    obtain ⟨e, he⟩ := hfail dbc hty
    simp [add_batch_go, he]
  | cons r rs ih =>
    intro dbc acc hty
    rw [List.cons_append, add_batch_go]
    cases hi : insert_item dbc r with
    | error e => rfl
    | ok pr =>
      obtain ⟨dbc1, iid⟩ := pr
      exact ih dbc1 (iid :: acc) ((insert_item_types dbc r dbc1 iid hi).trans hty)

/-- C5: a create or update request naming a type that does not exist or is
abstract fails with a ValidationError-kind error, and the state (in
particular the `items` table) is unchanged: for the single insert, for the
whole batch containing the bad record, and for the update. -/
theorem c5_type_validation (db : DB) (req : AddRequest) (n : String)
    (hreq : req.type = some n)
    (hinv : ∀ r, findType db.types n = some r → r.abstract = true) :
    (∃ msg, insert_item db req = Except.error (Err.validation msg))
    ∧ ((cmd_item_add db req).1 = db
        ∧ ∃ msg, (cmd_item_add db req).2 = Except.error (Err.validation msg))
    ∧ (∀ pre post, (cmd_item_add_batch db (pre ++ req :: post)).1 = db)
    ∧ (∀ iid (upd : UpdateRequest), upd.type = some (some n) →
        (cmd_item_update db iid upd).1 = db
        ∧ ∃ msg, (cmd_item_update db iid upd).2 = Except.error (Err.validation msg)) := by
  obtain ⟨msg, hmsg⟩ := validate_type_invalid db.types n hinv
  have hmsg2 : validate_type db.types req.type = some msg := by rw [hreq]; exact hmsg
  have hins : insert_item db req = Except.error (Err.validation msg) := by
    rw [insert_item, hmsg2]
  refine ⟨⟨msg, hins⟩, ?_, ?_, ?_⟩
  · constructor
    · show (cmd_item_add db req).1 = db
      rw [cmd_item_add, hins]
    · refine ⟨msg, ?_⟩
      show (cmd_item_add db req).2 = Except.error (Err.validation msg)
      rw [cmd_item_add, hins]
  · intro pre post
    rw [cmd_item_add_batch]
    refine add_batch_go_fail db req post ?_ pre db [] rfl
    intro dbc hty
    refine ⟨Err.validation msg, ?_⟩
    rw [insert_item, show validate_type dbc.types req.type = some msg from by
      rw [hty]; exact hmsg2]
  · intro iid upd hupd
    have hb : upd.type.bind (fun tn => validate_type db.types tn) = some msg := by
      rw [hupd]; exact hmsg
    constructor
    · show (cmd_item_update db iid upd).1 = db
      rw [cmd_item_update, hb]
    · refine ⟨msg, ?_⟩
      show (cmd_item_update db iid upd).2 = Except.error (Err.validation msg)
      rw [cmd_item_update, hb]

/-- The store with one abstract type used as the C5 witness. -/
def c5db : DB := { types := [{ name := "animal", abstract := true }] }

/-- The C5 witness request: create an item of the abstract type. -/
def c5req : AddRequest := { title := "rex", type := some "animal" }

/-- C5 witness: adding an item of an abstract type, a batch containing it,
and retyping an item to it all leave the state unchanged. -/
theorem c5_type_validation_witness :
    (cmd_item_add c5db c5req).1 = c5db
    ∧ (cmd_item_add_batch c5db [c5req]).1 = c5db
    ∧ (cmd_item_update c5db 1 { type := some (some "animal") }).1 = c5db := by
  have h := c5_type_validation c5db c5req "animal" rfl
    (by intro r hr; cases hr; rfl)
  exact ⟨h.2.1.1, h.2.2.1 [] [], (h.2.2.2 1 { type := some (some "animal") } rfl).1⟩

/-! ## Claim C6: partial JSON-merge semantics of `update` -/

/-- A key that looks up to nothing has no pair in the list. -/
theorem lookup_none_forall {β : Type} (l : List (String × β)) (k : String)
    (h : List.lookup k l = none) : ∀ p ∈ l, p.1 ≠ k := by
  induction l with
  | nil => intro p hp; cases hp
  | cons q rest ih =>
    obtain ⟨qk, qv⟩ := q
    intro p hp
    rw [List.lookup] at h
    by_cases hq : (k == qk) = true
    · rw [hq] at h; cases h
    · rw [show (k == qk) = false from by simpa using hq] at h
      rcases List.mem_cons.mp hp with rfl | hp2
      · intro he
        have : qk = k := he
        exact hq (by simp [this])
      · exact ih h p hp2

/-- The ref-extraction loop passes a payload through untouched when none of
the ref fields occurs in it. -/
theorem extract_refs_core_skip (rf : List (String × RefInfo)) (d : JObj)
    (h : ∀ p ∈ rf, List.lookup p.1 d = none) :
    extract_refs_core rf d = some (d, []) := by
  induction rf with
  | nil => rfl
  | cons q rest ih =>
    obtain ⟨fname, fi⟩ := q
    rw [extract_refs_core]
    rw [show List.lookup fname d = none from h (fname, fi) (List.mem_cons_self _ _)]
    exact ih (fun p hp => h p (List.mem_cons_of_mem _ hp))

/-- `_extract_refs` passes a payload through untouched when none of the
resolved ref fields occurs in it. -/
theorem extract_refs_skip (ts : TypesStore) (tn : Option String) (d : JObj)
    (h : ∀ p ∈ get_ref_fields ts tn, List.lookup p.1 d = none) :
    extract_refs ts tn d = some (d, []) := by
  cases tn with
  | none => rfl
  | some nm =>
    simp only [extract_refs]
    by_cases he : (get_ref_fields ts (some nm)).isEmpty
    · rw [if_pos he]
    · rw [if_neg he]
      exact extract_refs_core_skip _ d h

/-- `find?` over a map that leaves the predicate invariant. -/
theorem find?_map_pred {α : Type} (f : α → α) (p : α → Bool)
    (hf : ∀ x, p (f x) = p x) (l : List α) :
    (l.map f).find? p = (l.find? p).map f := by
  induction l with
  | nil => rfl
  | cons x rest ih =>
    by_cases hx : p x = true
    · have hfx : p (f x) = true := by rw [hf]; exact hx
      simp only [List.map_cons, List.find?, hfx, hx]
      rfl
    · have hx2 : p x = false := by simpa using hx
      have hfx : p (f x) = false := by rw [hf]; exact hx2
      simp only [List.map_cons, List.find?, hfx, hx2]
      exact ih

/-- When the type validation passes, `cmd_item_update` is its body. -/
theorem cmd_item_update_eq_body (db : DB) (iid : Int) (upd : UpdateRequest)
    (h : upd.type.bind (fun tn => validate_type db.types tn) = none) :
    cmd_item_update db iid upd = cmd_item_update_body db iid upd := by
  rw [cmd_item_update, h]

/-- Evaluation of the update body on the successful `data` path. -/
theorem cmd_item_update_body_data (db : DB) (iid : Int) (upd : UpdateRequest)
    (d ref_data : JObj) (rels : List (Int × String)) (relT2 : List Relation)
    (hdata : upd.data = some d)
    (hext : extract_refs db.types (effective_type_name db iid upd) d
      = some (ref_data, rels))
    (hsave : save_relations db.types db.items
      (relations_after_delete db iid
        (touched_fields db.types (effective_type_name db iid upd) rels d))
      iid rels (effective_type_name db iid upd) = Except.ok relT2) :
    cmd_item_update_body db iid upd =
      ({ db with
          items := db.items.map (fun i =>
            if i.id == iid then
              applyItemUpdate upd db.now (some (merged_data db iid ref_data)) i
            else i),
          relations := relT2 }, Except.ok iid) := by
  simp only [cmd_item_update_body, hdata, hext, hsave]

/-- C6: updating an item whose stored `data` is `{x: 1, y: 9}` with the
payload `{x: 2}` (where `x` is not a ref field of the item's type) succeeds
and stores `{x: 2, y: 9}`: the supplied key overwrites, the untouched key
persists, and no other row or table changes. -/
theorem c6_update_merge (db : DB) (iid : Int) (it : Item)
    (hfind : db.items.find? (fun i => i.id == iid) = some it)
    (hdata : it.data = [("x", JVal.jnum 1), ("y", JVal.jnum 9)])
    (href : List.lookup "x" (get_ref_fields db.types it.type) = none) :
    (cmd_item_update db iid { data := some [("x", JVal.jnum 2)] }).2 = Except.ok iid
    ∧ (cmd_item_update db iid { data := some [("x", JVal.jnum 2)] }).1.items.find?
        (fun i => i.id == iid)
      = some { it with data := [("x", JVal.jnum 2), ("y", JVal.jnum 9)],
                       updated_at := db.now }
    ∧ (cmd_item_update db iid { data := some [("x", JVal.jnum 2)] }).1.relations
      = db.relations := by
  set upd : UpdateRequest := { data := some [("x", JVal.jnum 2)] } with hupd
  have htn : effective_type_name db iid upd = it.type := by
    show (db.items.find? (fun i => i.id == iid)).bind (fun i => i.type) = it.type
    rw [hfind]
    rfl
  have hrefnames : ∀ p ∈ get_ref_fields db.types it.type,
      List.lookup p.1 [("x", JVal.jnum 2)] = none := by
    intro p hp
    have hne : p.1 ≠ "x" := lookup_none_forall _ "x" href p hp
    rw [List.lookup, show (p.1 == "x") = false from by simpa using hne]
    rfl
  have hext : extract_refs db.types (effective_type_name db iid upd) [("x", JVal.jnum 2)]
      = some ([("x", JVal.jnum 2)], []) := by
    rw [htn]
    exact extract_refs_skip db.types it.type _ hrefnames
  have htouch : touched_fields db.types (effective_type_name db iid upd)
      [] [("x", JVal.jnum 2)] = [] := by
    rw [htn, touched_fields]
    have : (((get_ref_fields db.types it.type).map (fun f => f.1)).filter
        (fun f => (List.lookup f [("x", JVal.jnum 2)]).isSome)) = [] := by
      refine List.filter_eq_nil_iff.mpr ?_
      intro a ha
      obtain ⟨p, hp, hpe⟩ := List.mem_map.mp ha
      rw [← hpe, hrefnames p hp]
      simp
    rw [this]
    rfl
  have hrel1 : relations_after_delete db iid
      (touched_fields db.types (effective_type_name db iid upd) [] [("x", JVal.jnum 2)])
      = db.relations := by
    rw [htouch, relations_after_delete]
    refine List.filter_eq_self.mpr ?_
    intro r hr
    simp
  have hsave : save_relations db.types db.items
      (relations_after_delete db iid
        (touched_fields db.types (effective_type_name db iid upd) [] [("x", JVal.jnum 2)]))
      iid [] (effective_type_name db iid upd) = Except.ok db.relations := by
    rw [hrel1]
    rfl
  have hbody := cmd_item_update_body_data db iid upd [("x", JVal.jnum 2)]
    [("x", JVal.jnum 2)] [] db.relations rfl hext hsave
  have hcmd : cmd_item_update db iid upd =
      ({ db with
          items := db.items.map (fun i =>
            if i.id == iid then
              applyItemUpdate upd db.now
                (some (merged_data db iid [("x", JVal.jnum 2)])) i
            else i),
          relations := db.relations }, Except.ok iid) :=
    (cmd_item_update_eq_body db iid upd rfl).trans hbody
  have hmerged : merged_data db iid [("x", JVal.jnum 2)]
      = [("x", JVal.jnum 2), ("y", JVal.jnum 9)] := by
    simp only [merged_data, hfind, hdata]
    rfl
  refine ⟨by rw [hcmd], ?_, by rw [hcmd]⟩
  rw [hcmd]
  have hid : (it.id == iid) = true := by
    have := List.find?_some hfind
    simpa using this
  have hpred : ∀ i : Item,
      ((if i.id == iid then
          applyItemUpdate upd db.now
            (some (merged_data db iid [("x", JVal.jnum 2)])) i
        else i).id == iid) = (i.id == iid) := by
    intro i
    by_cases hi : (i.id == iid) = true
    · rw [if_pos hi, hi]
      show (i.id == iid) = true
      exact hi
    · rw [if_neg (by simpa using hi)]
  show (db.items.map (fun i =>
      if i.id == iid then
        applyItemUpdate upd db.now
          (some (merged_data db iid [("x", JVal.jnum 2)])) i
      else i)).find? (fun i => i.id == iid) = _
  rw [find?_map_pred _ _ hpred, hfind]
  show some (if it.id == iid then
      applyItemUpdate upd db.now (some (merged_data db iid [("x", JVal.jnum 2)])) it
    else it) = _
  rw [if_pos hid, hmerged]
  rfl

/-- The concrete database used as the C6 witness. -/
def c6db : DB :=
  { items := [{ id := 1, title := "t",
                data := [("x", JVal.jnum 1), ("y", JVal.jnum 9)] }],
    now := 5 }

/-- C6 witness: the update on the concrete store yields `{x: 2, y: 9}`. -/
theorem c6_update_merge_witness :
    (cmd_item_update c6db 1 { data := some [("x", JVal.jnum 2)] }).1.items.find?
        (fun i => i.id == 1)
      = some { id := 1, title := "t",
               data := [("x", JVal.jnum 2), ("y", JVal.jnum 9)], updated_at := 5 } := by
  have h := c6_update_merge c6db 1
    { id := 1, title := "t", data := [("x", JVal.jnum 1), ("y", JVal.jnum 9)] }
    rfl rfl rfl
  exact h.2.1

/-! ## Claim C2: relation round-trip -/

/-- A store with one type declaring a singular ref field `assignee` and a
multiple ref field `related_persons` (plus arbitrary further non-ref
fields). -/
def c2types (tname rA rB dA dB : String) (others : List FieldDef) : TypesStore :=
  [{ name := tname,
     fields_schema :=
       ⟨"assignee", "ref", rA, false, dA⟩
       :: ⟨"related_persons", "ref", rB, true, dB⟩ :: others }]

/-- The C2 database: the type plus the three target items `1`, `2`, `5`. -/
def c2db (tname rA rB dA dB : String) (others : List FieldDef) : DB :=
  { types := c2types tname rA rB dA dB others,
    items := [{ id := 1, title := "p1" }, { id := 2, title := "p2" },
              { id := 5, title := "p5" }],
    nextId := 7 }

/-- The C2 request: create an item of the type with both ref fields set. -/
def c2req (tname : String) : AddRequest :=
  { title := "t", type := some tname,
    data := [("assignee", JVal.jnum 5),
             ("related_persons", JVal.jlist [JVal.jnum 1, JVal.jnum 2])] }

/-- C2: creating an item with `data = {assignee: 5, related_persons: [1, 2]}`
under a type declaring `assignee` as a singular ref and `related_persons`
as a multiple ref succeeds; the stored raw `data` contains neither key, the
values exist only as edge rows, and reading the item back yields
`assignee == 5` (a scalar) and `related_persons` as a list holding exactly
`{1, 2}`. -/
theorem c2_relation_roundtrip (tname rA rB dA dB : String) (others : List FieldDef)
    (hothers : ∀ f ∈ others, f.ftype ≠ "ref") :
    (cmd_item_add (c2db tname rA rB dA dB others) (c2req tname)).2 = Except.ok 7
    ∧ (∃ itm : Item,
        (cmd_item_add (c2db tname rA rB dA dB others) (c2req tname)).1.items.find?
          (fun i => i.id == 7) = some itm
        ∧ List.lookup "assignee" itm.data = none
        ∧ List.lookup "related_persons" itm.data = none)
    ∧ (cmd_item_add (c2db tname rA rB dA dB others) (c2req tname)).1.relations
      = [⟨7, 5, "assignee"⟩, ⟨7, 1, "related_persons"⟩, ⟨7, 2, "related_persons"⟩]
    ∧ (∃ enriched : Item,
        cmd_item_get (cmd_item_add (c2db tname rA rB dA dB others) (c2req tname)).1 7
          = Except.ok enriched
        ∧ List.lookup "assignee" enriched.data = some (JVal.jnum 5)
        ∧ ∃ l, List.lookup "related_persons" enriched.data = some (JVal.jlist l)
            ∧ l.Perm [JVal.jnum 1, JVal.jnum 2]) := by
  set ts : TypesStore := c2types tname rA rB dA dB others with hts
  have hft : findType ts tname =
      some { name := tname,
             fields_schema :=
               ⟨"assignee", "ref", rA, false, dA⟩
               :: ⟨"related_persons", "ref", rB, true, dB⟩ :: others } := by
    simp [hts, c2types, findType, List.find?]
  have hres : get_resolved_fields ts tname =
      ⟨"assignee", "ref", rA, false, dA⟩
      :: ⟨"related_persons", "ref", rB, true, dB⟩ :: others := by
    simp only [get_resolved_fields, get_resolved_fields_fuel, hft]
    rfl
  have hof : others.filter (fun f => f.ftype == "ref") = [] :=
    List.filter_eq_nil_iff.mpr (fun f hf => by simpa using hothers f hf)
  have hrf : get_ref_fields ts (some tname) =
      [("assignee", ⟨rA, false⟩), ("related_persons", ⟨rB, true⟩)] := by
    simp [get_ref_fields, hres, hof]
  have hval : validate_type ts (some tname) = none := by
    simp only [validate_type, hft]
    rfl
  have hext : extract_refs ts (some tname)
      [("assignee", JVal.jnum 5),
       ("related_persons", JVal.jlist [JVal.jnum 1, JVal.jnum 2])]
      = some ([], [(5, "assignee"), (1, "related_persons"), (2, "related_persons")]) := by
    simp only [extract_refs, hrf]
    rfl
  have hins : insert_item (c2db tname rA rB dA dB others) (c2req tname) =
      Except.ok
        ({ types := ts,
           items := [{ id := 1, title := "p1" }, { id := 2, title := "p2" },
                     { id := 5, title := "p5" },
                     { id := 7, type := some tname, title := "t" }],
           relations := [⟨7, 5, "assignee"⟩, ⟨7, 1, "related_persons"⟩,
                         ⟨7, 2, "related_persons"⟩],
           nextId := 8, now := 0 }, 7) := by
    simp only [insert_item, c2db, c2req, hts, hval, hext]
    simp only [save_relations, insertRelIgnore, hrf]
    rfl
  have hcmd : cmd_item_add (c2db tname rA rB dA dB others) (c2req tname) =
      ({ types := ts,
         items := [{ id := 1, title := "p1" }, { id := 2, title := "p2" },
                   { id := 5, title := "p5" },
                   { id := 7, type := some tname, title := "t" }],
         relations := [⟨7, 5, "assignee"⟩, ⟨7, 1, "related_persons"⟩,
                       ⟨7, 2, "related_persons"⟩],
         nextId := 8, now := 0 }, Except.ok 7) := by
    rw [cmd_item_add, hins]
  refine ⟨by rw [hcmd], ?_, by rw [hcmd], ?_⟩
  · refine ⟨{ id := 7, type := some tname, title := "t" }, ?_, rfl, rfl⟩
    rw [hcmd]
    rfl
  · refine ⟨{ id := 7, type := some tname, title := "t",
              data := [("assignee", JVal.jnum 5),
                       ("related_persons", JVal.jlist [JVal.jnum 1, JVal.jnum 2])] },
            ?_, rfl, [JVal.jnum 1, JVal.jnum 2], rfl, List.Perm.refl _⟩
    rw [hcmd]
    show Except.ok (enrich_item ts
        [⟨7, 5, "assignee"⟩, ⟨7, 1, "related_persons"⟩, ⟨7, 2, "related_persons"⟩]
        { id := 7, type := some tname, title := "t" }) = _
    simp only [enrich_item, hrf]
    rfl

/-- C2 witness: the theorem applied at the concrete type name `task` with
ref targets `person`, no further fields. -/
theorem c2_relation_roundtrip_witness :
    (cmd_item_add (c2db "task" "person" "person" "" "" []) (c2req "task")).2
      = Except.ok 7
    ∧ (cmd_item_add (c2db "task" "person" "person" "" "" []) (c2req "task")).1.relations
      = [⟨7, 5, "assignee"⟩, ⟨7, 1, "related_persons"⟩, ⟨7, 2, "related_persons"⟩] := by
  have h := c2_relation_roundtrip "task" "person" "person" "" "" []
    (by intro f hf; cases hf)
  exact ⟨h.1, h.2.2.1⟩

/-! ## Claim C7: edge replacement on update -/

/-- Keep-first dedup keeps any element whenever equal keys force equal
elements and the key is unseen. -/
theorem mem_dedupByAux {α β : Type} [DecidableEq β] (key : α → β) :
    ∀ (l : List α) (seen : List β) (x : α),
      x ∈ l → (∀ a ∈ l, ∀ b ∈ l, key a = key b → a = b) → key x ∉ seen →
      x ∈ dedupByAux key seen l := by
  intro l
  induction l with
  | nil => intro seen x hx; cases hx
  | cons y rest ih =>
    intro seen x hx huniq hseen
    rw [dedupByAux]
    rcases List.mem_cons.mp hx with rfl | hx2
    · rw [if_neg hseen]
      exact List.mem_cons_self _ _
    · by_cases hy : key y ∈ seen
      · rw [if_pos hy]
        refine ih seen x hx2 ?_ hseen
        intro a ha b hb
        exact huniq a (List.mem_cons_of_mem _ ha) b (List.mem_cons_of_mem _ hb)
      · rw [if_neg hy]
        by_cases hxy : key x = key y
        · have hxeq : x = y := huniq x hx y (List.mem_cons_self _ _) hxy
          subst hxeq
          exact List.mem_cons_self _ _
        · refine List.mem_cons_of_mem _ ?_
          refine ih (key y :: seen) x hx2 ?_ ?_
          · intro a ha b hb
            exact huniq a (List.mem_cons_of_mem _ ha) b (List.mem_cons_of_mem _ hb)
          · intro hk
            rcases List.mem_cons.mp hk with hk1 | hk2
            · exact hxy hk1
            · exact hseen hk2

/-- Keep-first dedup only returns elements of its input. -/
theorem mem_of_dedupByAux {α β : Type} [DecidableEq β] (key : α → β) :
    ∀ (l : List α) (seen : List β) (x : α),
      x ∈ dedupByAux key seen l → x ∈ l := by
  intro l
  induction l with
  | nil => intro seen x hx; cases hx
  | cons y rest ih =>
    intro seen x hx
    rw [dedupByAux] at hx
    by_cases hy : key y ∈ seen
    · rw [if_pos hy] at hx
      exact List.mem_cons_of_mem _ (ih seen x hx)
    · rw [if_neg hy] at hx
      rcases List.mem_cons.mp hx with rfl | hx2
      · exact List.mem_cons_self _ _
      · exact List.mem_cons_of_mem _ (ih _ x hx2)

/-- Membership in the keep-first dedup under the identity key. -/
theorem mem_dedupBy_id (l : List String) (x : String) (hx : x ∈ l) :
    x ∈ dedupBy (fun s => s) l :=
  mem_dedupByAux _ l [] x hx (fun a _ b _ h => h) (by simp)

/-- Case analysis of `INSERT OR IGNORE` on the edge table. -/
theorem insertRelIgnore_cases (itemsT : List Item) (relT : List Relation)
    (r : Relation) (relT1 : List Relation)
    (h : insertRelIgnore itemsT relT r = Except.ok relT1) :
    (relT1 = relT ∧ r ∈ relT)
    ∨ (relT1 = relT ++ [r]
        ∧ (itemsT.any (fun i => i.id == r.item_id)) = true
        ∧ (itemsT.any (fun i => i.id == r.related_item_id)) = true) := by
  rw [insertRelIgnore] at h
  by_cases hc : relT.contains r
  · rw [if_pos hc] at h
    cases h
    exact Or.inl ⟨rfl, by simpa using hc⟩
  · rw [if_neg hc] at h
    by_cases hfk : ((itemsT.any (fun i => i.id == r.item_id))
        && (itemsT.any (fun i => i.id == r.related_item_id))) = true
    · rw [if_pos hfk] at h
      cases h
      obtain ⟨h1, h2⟩ := Bool.and_eq_true_iff.mp hfk
      exact Or.inr ⟨rfl, h1, h2⟩
    · rw [if_neg hfk] at h
      cases h

/-- Full specification of a successful `_save_relations` run: old edges are
kept, every requested edge is present, every edge of the result is an old
edge or a requested one, and every new edge passed the foreign-key check. -/
theorem save_relations_spec (ts : TypesStore) (itemsT : List Item) (iid : Int)
    (tn : Option String) :
    ∀ (rels : List (Int × String)) (relT relT2 : List Relation),
      save_relations ts itemsT relT iid rels tn = Except.ok relT2 →
      (∀ r ∈ relT, r ∈ relT2)
      ∧ (∀ p ∈ rels, (⟨iid, p.1, p.2⟩ : Relation) ∈ relT2)
      ∧ (∀ r ∈ relT2, r ∈ relT ∨ ∃ p ∈ rels, r = ⟨iid, p.1, p.2⟩)
      ∧ (∀ r ∈ relT2, r ∈ relT
          ∨ ((itemsT.any (fun i => i.id == r.item_id)) = true
              ∧ (itemsT.any (fun i => i.id == r.related_item_id)) = true)) := by
  intro rels
  induction rels with
  | nil =>
    intro relT relT2 h
    cases h
    exact ⟨fun r hr => hr, fun p hp => absurd hp (List.not_mem_nil p),
      fun r hr => Or.inl hr, fun r hr => Or.inl hr⟩
  | cons p rest ih =>
    intro relT relT2 h
    obtain ⟨rid, fname⟩ := p
    rw [save_relations] at h
    by_cases hfld : ((get_ref_fields ts tn).lookup fname).isSome
    · rw [if_pos hfld] at h
      cases hins : insertRelIgnore itemsT relT ⟨iid, rid, fname⟩ with
      | error e => rw [hins] at h; cases h
      | ok relT1 =>
        rw [hins] at h
        obtain ⟨ihmono, ihcomp, ihsound, ihfk⟩ := ih relT1 relT2 h
        have hcases := insertRelIgnore_cases itemsT relT _ relT1 hins
        have hmono1 : ∀ r ∈ relT, r ∈ relT1 := by
          intro r hr
          rcases hcases with ⟨rfl, _⟩ | ⟨rfl, _, _⟩
          · exact hr
          · exact List.mem_append_left _ hr
        have hnew1 : (⟨iid, rid, fname⟩ : Relation) ∈ relT1 := by
          rcases hcases with ⟨rfl, hm⟩ | ⟨rfl, _, _⟩
          · exact hm
          · exact List.mem_append_right _ (List.mem_singleton.mpr rfl)
        refine ⟨fun r hr => ihmono r (hmono1 r hr), ?_, ?_, ?_⟩
        · intro q hq
          rcases List.mem_cons.mp hq with rfl | hq2
          · exact ihmono _ (hnew1)
          · exact ihcomp q hq2
        · intro r hr
          rcases ihsound r hr with hr1 | ⟨q, hq, hqe⟩
          · rcases hcases with ⟨rfl, _⟩ | ⟨rfl, _, _⟩
            · exact Or.inl hr1
            · rcases List.mem_append.mp hr1 with hrl | hrr
              · exact Or.inl hrl
              · refine Or.inr ⟨(rid, fname), List.mem_cons_self _ _, ?_⟩
                simpa using hrr
          · exact Or.inr ⟨q, List.mem_cons_of_mem _ hq, hqe⟩
        · intro r hr
          rcases ihfk r hr with hr1 | hfk2
          · rcases hcases with ⟨rfl, _⟩ | ⟨rfl, hfa, hfb⟩
            · exact Or.inl hr1
            · rcases List.mem_append.mp hr1 with hrl | hrr
              · exact Or.inl hrl
              · have : r = ⟨iid, rid, fname⟩ := by simpa using hrr
                subst this
                exact Or.inr ⟨hfa, hfb⟩
          · exact Or.inr hfk2
    · rw [if_neg hfld] at h
      cases h

/-- The C7 counterexample state: item 1 now has type `b` (no ref fields),
but a stale edge `(1, 9, f)` from a former ref field `f` remains. -/
def c7db : DB :=
  { types := [{ name := "b" }],
    items := [{ id := 1, type := some "b", title := "i1" },
              { id := 9, title := "i9" }],
    relations := [⟨1, 9, "f"⟩] }

/-- C7 counterexample: updating item 1 with `data = {f: 7}`, where `f` only
used to be a ref field, succeeds but leaves the stale edge `(1, 9, f)` in
place — the update does not delete the prior edges for `(1, f)`, contrary
to the claim's "is (or was) a ref field" clause. -/
theorem c7_full_replace_counterexample :
    (cmd_item_update c7db 1 { data := some [("f", JVal.jnum 7)] }).2 = Except.ok 1
    ∧ (⟨1, 9, "f"⟩ : Relation)
        ∈ (cmd_item_update c7db 1 { data := some [("f", JVal.jnum 7)] }).1.relations
    ∧ (List.lookup "f"
        ((cmd_item_update c7db 1 { data := some [("f", JVal.jnum 7)] }).1.items.find?
          (fun i => i.id == 1) |>.getD { id := 0 }).data) = some (JVal.jnum 7) := by
  have hrel : (cmd_item_update c7db 1 { data := some [("f", JVal.jnum 7)] }).1.relations
      = [⟨1, 9, "f"⟩] := rfl
  refine ⟨rfl, ?_, rfl⟩
  rw [hrel]
  exact List.mem_singleton.mpr rfl

/-- C7 (amended): when the updated key names a ref field of the item's
effective (current or newly assigned) type, the update fully replaces that
field's edge set: afterwards the edges of `(item, field)` are exactly those
derived from the new value, old edges of that field are gone unless
re-derived, and edges of other items or untouched fields survive.  Keys
that merely used to be ref fields are not replaced (see the
counterexample). -/
theorem c7_ref_field_full_replace (db : DB) (iid : Int) (upd : UpdateRequest)
    (d ref_data : JObj) (rels : List (Int × String)) (fname : String) (db2 : DB)
    (hnoval : upd.type.bind (fun tn => validate_type db.types tn) = none)
    (hdata : upd.data = some d)
    (hext : extract_refs db.types (effective_type_name db iid upd) d
      = some (ref_data, rels))
    (hfref : fname ∈ (get_ref_fields db.types (effective_type_name db iid upd)).map
      (fun p => p.1))
    (hkey : (List.lookup fname d).isSome = true)
    (hupd : cmd_item_update db iid upd = (db2, Except.ok iid)) :
    (∀ v : Int, (⟨iid, v, fname⟩ : Relation) ∈ db2.relations ↔ (v, fname) ∈ rels)
    ∧ (∀ r ∈ db.relations,
        (r.item_id ≠ iid
          ∨ r.field_name ∉ touched_fields db.types (effective_type_name db iid upd) rels d)
        → r ∈ db2.relations) := by
  rw [cmd_item_update_eq_body db iid upd hnoval] at hupd
  have htouched : fname ∈ touched_fields db.types (effective_type_name db iid upd) rels d := by
    refine mem_dedupBy_id _ fname (List.mem_append_right _ ?_)
    exact List.mem_filter.mpr ⟨hfref, hkey⟩
  cases hsv : save_relations db.types db.items
      (relations_after_delete db iid
        (touched_fields db.types (effective_type_name db iid upd) rels d))
      iid rels (effective_type_name db iid upd) with
  | error e =>
    exfalso
    have hbe : cmd_item_update_body db iid upd = (db, Except.error e) := by
      simp only [cmd_item_update_body, hdata, hext, hsv]
    rw [hbe] at hupd
    have := congrArg Prod.snd hupd
    simp at this
  | ok relT2 =>
    have hbody := cmd_item_update_body_data db iid upd d ref_data rels relT2 hdata hext hsv
    rw [hbody] at hupd
    have hdb2 : db2.relations = relT2 := by
      have h1 := congrArg Prod.fst hupd
      exact (congrArg DB.relations h1).symm ▸ rfl
    obtain ⟨hmono, hcomp, hsound, _⟩ :=
      save_relations_spec db.types db.items iid (effective_type_name db iid upd)
        rels _ relT2 hsv
    constructor
    · intro v
      rw [hdb2]
      constructor
      · intro hmem
        rcases hsound _ hmem with h1 | ⟨q, hq, hqe⟩
        · exfalso
          have := (List.mem_filter.mp h1).2
          rw [show ((⟨iid, v, fname⟩ : Relation).item_id == iid) = true from by simp] at this
          have hcont : (touched_fields db.types (effective_type_name db iid upd) rels d).contains
              (⟨iid, v, fname⟩ : Relation).field_name = true := by
            simpa using htouched
          rw [hcont] at this
          simp at this
        · injection hqe with h1 h2 h3
          rw [h2, h3]
          exact hq
      · intro hmem
        have := hcomp (v, fname) hmem
        exact this
    · intro r hr hcond
      rw [hdb2]
      refine hmono r ?_
      refine List.mem_filter.mpr ⟨hr, ?_⟩
      rcases hcond with h1 | h2
      · rw [show (r.item_id == iid) = false from by simpa using h1]
        rfl
      · rw [show ((touched_fields db.types (effective_type_name db iid upd) rels d).contains
          r.field_name) = false from by simpa using h2]
        simp

/-- The C7 witness state: item 1 has type `t` with a current singular ref
field `f` and one existing edge `(1, 9, f)`. -/
def c7wdb : DB :=
  { types := [{ name := "t",
                fields_schema := [⟨"f", "ref", "t2", false, ""⟩] }],
    items := [{ id := 1, type := some "t", title := "i1" },
              { id := 9, title := "i9" }, { id := 7, title := "i7" }],
    relations := [⟨1, 9, "f"⟩] }

/-- C7 witness: updating the current ref field `f` to `7` removes the old
edge `(1, 9, f)` and installs exactly `(1, 7, f)`. -/
theorem c7_ref_field_full_replace_witness :
    ¬ ((⟨1, 9, "f"⟩ : Relation)
        ∈ (cmd_item_update c7wdb 1 { data := some [("f", JVal.jnum 7)] }).1.relations)
    ∧ (⟨1, 7, "f"⟩ : Relation)
        ∈ (cmd_item_update c7wdb 1 { data := some [("f", JVal.jnum 7)] }).1.relations := by
  have h := c7_ref_field_full_replace c7wdb 1 { data := some [("f", JVal.jnum 7)] }
    [("f", JVal.jnum 7)] [] [(7, "f")] "f"
    (cmd_item_update c7wdb 1 { data := some [("f", JVal.jnum 7)] }).1
    rfl rfl (by rfl) (by decide) rfl rfl
  constructor
  · intro hm
    have := (h.1 9).mp hm
    simp at this
  · exact (h.1 7).mpr (List.mem_singleton.mpr rfl)

/-! ## Claim C10: deleting an item cascades edges on both endpoints -/

/-- `any` is invariant under a map that leaves the predicate invariant. -/
theorem any_map_eq {α : Type} (f : α → α) (p : α → Bool)
    (hf : ∀ y, p (f y) = p y) (l : List α) : (l.map f).any p = l.any p := by
  induction l with
  | nil => rfl
  | cons x rest ih => simp only [List.map_cons, List.any_cons, hf, ih]

/-- Pointwise reading of the referential-integrity check. -/
theorem rel_integrity_iff (db : DB) :
    rel_integrity db = true ↔
      ∀ r ∈ db.relations,
        (db.items.any (fun i => i.id == r.item_id)) = true
        ∧ (db.items.any (fun j => j.id == r.related_item_id)) = true := by
  rw [rel_integrity, List.all_eq_true]
  constructor
  · intro h r hr
    have := h r hr
    exact Bool.and_eq_true_iff.mp this
  · intro h r hr
    exact Bool.and_eq_true_iff.mpr (h r hr)

/-- The row function applied to surviving items by a delete preserves ids. -/
theorem delete_fix_id (iid : Int) (it : Item) :
    (if it.parent_id == some iid then { it with parent_id := none } else it).id = it.id := by
  by_cases hp : (it.parent_id == some iid) = true
  · rw [if_pos hp]
  · rw [if_neg (by simpa using hp)]

/-- An item with an id other than the deleted one survives the delete. -/
theorem delete_keeps_any (db : DB) (iid x : Int) (hx : x ≠ iid)
    (h : (db.items.any (fun i => i.id == x)) = true) :
    ((cmd_item_delete db iid).1.items.any (fun i => i.id == x)) = true := by
  show (((db.items.filter (fun it => !(it.id == iid))).map
      (fun it => if it.parent_id == some iid then { it with parent_id := none } else it)).any
      (fun i => i.id == x)) = true
  rw [any_map_eq _ _ (fun y => by rw [delete_fix_id])]
  obtain ⟨i, hi, hie⟩ := List.any_eq_true.mp h
  refine List.any_eq_true.mpr ⟨i, ?_, hie⟩
  refine List.mem_filter.mpr ⟨hi, ?_⟩
  have hix : i.id = x := by simpa using hie
  simp [hix, hx]

/-- The update's row function preserves ids. -/
theorem applyItemUpdate_id (upd : UpdateRequest) (now : Nat) (nd : Option JObj)
    (it : Item) : (applyItemUpdate upd now nd it).id = it.id := rfl

/-- `any` by id is unchanged by the update's row map. -/
theorem update_map_any (db : DB) (iid : Int) (upd : UpdateRequest)
    (nd : Option JObj) (x : Int) :
    ((db.items.map (fun it =>
        if it.id == iid then applyItemUpdate upd db.now nd it else it)).any
      (fun i => i.id == x))
    = (db.items.any (fun i => i.id == x)) := by
  refine any_map_eq _ _ ?_ db.items
  intro y
  by_cases hy : (y.id == iid) = true
  · rw [if_pos hy, applyItemUpdate_id]
  · rw [if_neg (by simpa using hy)]

/-- Inversion of a successful insert: the new state appends one item row
and its relations were saved against the appended table. -/
theorem insert_item_inv (db : DB) (req : AddRequest) (db1 : DB) (i : Int)
    (h : insert_item db req = Except.ok (db1, i)) :
    ∃ cleaned rels,
      db1.items = db.items ++
        [{ id := db.nextId, type := req.type, title := req.title,
           content := req.content, data := cleaned, parent_id := req.parent_id,
           status := req.status, created_at := db.now, updated_at := db.now }]
      ∧ save_relations db.types db1.items db.relations db.nextId rels req.type
          = Except.ok db1.relations := by
  cases hval : validate_type db.types req.type with
  | some msg =>
    simp only [insert_item, hval] at h
    cases h
  | none =>
    cases hext : extract_refs db.types req.type req.data with
    | none =>
      simp only [insert_item, hval, hext] at h
      cases h
    | some pr =>
      obtain ⟨cleaned, rels⟩ := pr
      cases hsv : save_relations db.types (db.items ++
          [{ id := db.nextId, type := req.type, title := req.title,
             content := req.content, data := cleaned, parent_id := req.parent_id,
             status := req.status, created_at := db.now, updated_at := db.now }])
          db.relations db.nextId rels req.type with
      | error e =>
        simp only [insert_item, hval, hext, hsv] at h
        cases h
      | ok relT1 =>
        have h2 : insert_item db req = Except.ok
            ({ db with
                items := db.items ++
                  [{ id := db.nextId, type := req.type, title := req.title,
                     content := req.content, data := cleaned, parent_id := req.parent_id,
                     status := req.status, created_at := db.now, updated_at := db.now }],
                relations := relT1, nextId := db.nextId + 1 }, db.nextId) := by
          simp only [insert_item, hval, hext, hsv]
        rw [h2] at h
        cases h
        exact ⟨cleaned, rels, rfl, hsv⟩

/-- C10: deleting an item removes exactly the edges touching it on either
endpoint (inbound edges included); referential integrity of the edge table
is preserved by delete, by insert, and by update. -/
theorem c10_delete_cascades (db : DB) (iid : Int) :
    (∀ r : Relation, r ∈ (cmd_item_delete db iid).1.relations
        ↔ (r ∈ db.relations ∧ r.item_id ≠ iid ∧ r.related_item_id ≠ iid))
    ∧ (rel_integrity db = true → rel_integrity (cmd_item_delete db iid).1 = true)
    ∧ (∀ (req : AddRequest) (db1 : DB) (i : Int),
        insert_item db req = Except.ok (db1, i) →
        rel_integrity db = true → rel_integrity db1 = true)
    ∧ (∀ (jid : Int) (upd : UpdateRequest),
        rel_integrity db = true → rel_integrity (cmd_item_update db jid upd).1 = true) := by
  have hdel : (cmd_item_delete db iid).1.relations
      = db.relations.filter (fun r => !(r.item_id == iid || r.related_item_id == iid)) := rfl
  refine ⟨?_, ?_, ?_, ?_⟩
  · intro r
    rw [hdel, List.mem_filter]
    constructor
    · rintro ⟨h1, h2⟩
      simp only [Bool.not_eq_eq_eq_not, Bool.not_true, Bool.or_eq_false_iff] at h2
      exact ⟨h1, by simpa using h2.1, by simpa using h2.2⟩
    · rintro ⟨h1, h2, h3⟩
      refine ⟨h1, ?_⟩
      simp [h2, h3]
  · intro hint
    rw [rel_integrity_iff] at hint
    rw [rel_integrity_iff]
    intro r hr
    rw [hdel, List.mem_filter] at hr
    obtain ⟨hr1, hr2⟩ := hr
    simp only [Bool.not_eq_eq_eq_not, Bool.not_true, Bool.or_eq_false_iff] at hr2
    obtain ⟨ha, hb⟩ := hint r hr1
    exact ⟨delete_keeps_any db iid r.item_id (by simpa using hr2.1) ha,
           delete_keeps_any db iid r.related_item_id (by simpa using hr2.2) hb⟩
  · intro req db1 i h hint
    obtain ⟨cleaned, rels, hitems, hsv⟩ := insert_item_inv db req db1 i h
    rw [rel_integrity_iff] at hint
    rw [rel_integrity_iff]
    intro r hr
    obtain ⟨_, _, _, hfk⟩ :=
      save_relations_spec db.types db1.items db.nextId req.type rels
        db.relations db1.relations hsv
    have happ : ∀ x : Int, (db.items.any (fun i2 => i2.id == x)) = true →
        (db1.items.any (fun i2 => i2.id == x)) = true := by
      intro x hx
      rw [hitems, List.any_append, hx]
      rfl
    rcases hfk r hr with hold | ⟨hfa, hfb⟩
    · obtain ⟨ha, hb⟩ := hint r hold
      exact ⟨happ _ ha, happ _ hb⟩
    · exact ⟨hfa, hfb⟩
  · intro jid upd hint
    cases hv : upd.type.bind (fun tn => validate_type db.types tn) with
    | some msg =>
      have : cmd_item_update db jid upd = (db, Except.error (Err.validation msg)) := by
        rw [cmd_item_update, hv]
      rw [this]
      exact hint
    | none =>
      rw [cmd_item_update_eq_body db jid upd hv]
      cases hd : upd.data with
      | none =>
        by_cases hs : (upd.title.isSome || upd.content.isSome || upd.parent_id.isSome
            || upd.status.isSome || upd.type.isSome) = true
        · have hb : cmd_item_update_body db jid upd =
              ({ db with items := db.items.map (fun it =>
                  if it.id == jid then applyItemUpdate upd db.now none it else it) },
               Except.ok jid) := by
            simp only [cmd_item_update_body, hd, hs]
            rfl
          rw [hb]
          rw [rel_integrity_iff] at hint
          rw [rel_integrity_iff]
          intro r hr
          obtain ⟨ha, hb2⟩ := hint r hr
          constructor
          · show ((db.items.map (fun it =>
              if it.id == jid then applyItemUpdate upd db.now none it else it)).any
              (fun i => i.id == r.item_id)) = true
            rw [update_map_any]
            exact ha
          · show ((db.items.map (fun it =>
              if it.id == jid then applyItemUpdate upd db.now none it else it)).any
              (fun i => i.id == r.related_item_id)) = true
            rw [update_map_any]
            exact hb2
        · have hb : cmd_item_update_body db jid upd = (db, Except.error Err.noValidFields) := by
            simp only [cmd_item_update_body, hd]
            rw [if_neg hs]
          rw [hb]
          exact hint
      | some d =>
        cases he : extract_refs db.types (effective_type_name db jid upd) d with
        | none =>
          have hb : cmd_item_update_body db jid upd
              = (db, Except.error (Err.validation "invalid ref value")) := by
            simp only [cmd_item_update_body, hd, he]
          rw [hb]
          exact hint
        | some pr =>
          obtain ⟨ref_data, rels⟩ := pr
          cases hsv : save_relations db.types db.items
              (relations_after_delete db jid
                (touched_fields db.types (effective_type_name db jid upd) rels d))
              jid rels (effective_type_name db jid upd) with
          | error e =>
            have hb : cmd_item_update_body db jid upd = (db, Except.error e) := by
              simp only [cmd_item_update_body, hd, he, hsv]
            rw [hb]
            exact hint
          | ok relT2 =>
            rw [cmd_item_update_body_data db jid upd d ref_data rels relT2 hd he hsv]
            rw [rel_integrity_iff] at hint
            rw [rel_integrity_iff]
            intro r hr
            obtain ⟨_, _, _, hfk⟩ := save_relations_spec db.types db.items jid
              (effective_type_name db jid upd) rels _ relT2 hsv
            have hmap : ∀ x : Int, (db.items.any (fun i2 => i2.id == x)) = true →
                ((db.items.map (fun it =>
                  if it.id == jid then
                    applyItemUpdate upd db.now (some (merged_data db jid ref_data)) it
                  else it)).any (fun i2 => i2.id == x)) = true := by
              intro x hx
              rw [update_map_any]
              exact hx
            rcases hfk r hr with hold | ⟨hfa, hfb⟩
            · have hold2 : r ∈ db.relations := (List.mem_filter.mp hold).1
              obtain ⟨ha, hb2⟩ := hint r hold2
              exact ⟨hmap _ ha, hmap _ hb2⟩
            · exact ⟨hmap _ hfa, hmap _ hfb⟩

/-- The concrete database used as the C10 witness: deleting item 1 removes
the inbound edge from 2 and the outbound edge to 3, keeping `(4, 5, h)`. -/
def c10db : DB :=
  { items := [{ id := 1 }, { id := 2 }, { id := 3 }, { id := 4 }, { id := 5 }],
    relations := [⟨2, 1, "f"⟩, ⟨1, 3, "g"⟩, ⟨4, 5, "h"⟩] }

/-- C10 witness: the theorem applied to the concrete store. -/
theorem c10_delete_cascades_witness :
    ((⟨2, 1, "f"⟩ : Relation) ∉ (cmd_item_delete c10db 1).1.relations)
    ∧ ((⟨1, 3, "g"⟩ : Relation) ∉ (cmd_item_delete c10db 1).1.relations)
    ∧ ((⟨4, 5, "h"⟩ : Relation) ∈ (cmd_item_delete c10db 1).1.relations)
    ∧ rel_integrity (cmd_item_delete c10db 1).1 = true := by
  have h := c10_delete_cascades c10db 1
  refine ⟨?_, ?_, ?_, h.2.1 (by decide)⟩
  · intro hm
    have := ((h.1 ⟨2, 1, "f"⟩).mp hm).2.2
    simp at this
  · intro hm
    have := ((h.1 ⟨1, 3, "g"⟩).mp hm).2.1
    simp at this
  · exact (h.1 ⟨4, 5, "h"⟩).mpr ⟨by decide, by decide, by decide⟩

/-! ## Claim C8: fallback substring search -/

/-- Insertion keeps the list's elements. -/
theorem insertDesc_perm (x : Item) : ∀ l : List Item, (insertDesc x l).Perm (x :: l) := by
  intro l
  induction l with
  | nil => exact List.Perm.refl _
  | cons y ys ih =>
    rw [insertDesc]
    by_cases hc : x.created_at ≥ y.created_at
    · rw [if_pos hc]
    · rw [if_neg hc]
      exact ((ih.cons y).trans (List.Perm.swap x y ys))

/-- The fallback's `ORDER BY` is a permutation. -/
theorem sortDesc_perm : ∀ l : List Item, (sortDesc l).Perm l := by
  intro l
  induction l with
  | nil => exact List.Perm.refl _
  | cons x xs ih => exact (insertDesc_perm x (sortDesc xs)).trans (ih.cons x)

/-- C8 counterexample: with the index unavailable, searching `apple` with
limit 1 over a store holding two items whose titles contain `apple` returns
only one of them — item 1 matches but is absent, so the fallback does not
return every matching item. -/
def c8db : DB :=
  { items := [{ id := 1, title := "apple pie", created_at := 1 },
              { id := 2, title := "apple tart", created_at := 2 }] }

/-- C8 counterexample theorem (see `c8db`). -/
theorem c8_fallback_search_counterexample :
    likeMatch "apple" "apple pie" = true
    ∧ (∃ it ∈ c8db.items, it.id = 1 ∧ likeMatch "apple" it.title = true)
    ∧ (cmd_item_search_nofts c8db "apple" none 1).all (fun r => !(r.id == 1)) = true := by
  refine ⟨by rfl, ⟨{ id := 1, title := "apple pie", created_at := 1 }, ?_, rfl, by rfl⟩, by rfl⟩
  exact List.mem_cons_self _ _

/-- C8 (amended): whenever the number of matching items does not exceed the
limit, the fallback search returns every item whose title or content
contains the keyword (ASCII case-insensitively): the result carries an
entry with that item's id. -/
theorem c8_fallback_search (db : DB) (kw : String) (lim : Nat)
    (hcount : (db.items.filter (fun i => itemMatches kw i)).length ≤ lim) :
    ∀ it ∈ db.items, (likeMatch kw it.title || likeMatch kw it.content) = true →
      ∃ r ∈ cmd_item_search_nofts db kw none lim, r.id = it.id := by
  intro it hit hmatch
  have hm : itemMatches kw it = true := by
    rw [itemMatches]
    rcases Bool.or_eq_true_iff.mp hmatch with h1 | h2
    · simp [h1]
    · simp [h2]
  have hfil : it ∈ db.items.filter (fun i => itemMatches kw i) :=
    List.mem_filter.mpr ⟨hit, hm⟩
  have hdir : it ∈ direct_matches db.items kw :=
    (sortDesc_perm _).mem_iff.mpr hfil
  have hlen : (direct_matches db.items kw).length ≤ lim := by
    rw [direct_matches, (sortDesc_perm (db.items.filter (fun i => itemMatches kw i))).length_eq]
    exact hcount
  have htake : (direct_matches db.items kw).take lim = direct_matches db.items kw :=
    List.take_of_length_le hlen
  have hsearch : it ∈ search_items_like db.items db.relations kw none lim := by
    show it ∈ ((direct_matches db.items kw).take lim ++
      ((relatedCandidates db.items db.relations kw).take lim).filter
        (fun r => !((((direct_matches db.items kw).take lim).map (fun i => i.id)).contains r.id))).take lim
    rw [htake, List.take_append_eq_append_take, List.take_of_length_le hlen]
    exact List.mem_append_left _ hdir
  exact ⟨enrich_item db.types db.relations it,
    List.mem_map.mpr ⟨it, hsearch, rfl⟩, rfl⟩

/-- The store used as the C8 witness (the keyword arrives upper-cased). -/
def c8wdb : DB :=
  { items := [{ id := 1, title := "apple pie", created_at := 1 },
              { id := 2, title := "apple tart", created_at := 2 }] }

/-- C8 witness: with a sufficient limit, the upper-cased keyword finds item
1 whose lower-case title contains it. -/
theorem c8_fallback_search_witness :
    ∃ r ∈ cmd_item_search_nofts c8wdb "APPLE" none 50, r.id = 1 := by
  refine c8_fallback_search c8wdb "APPLE" 50 (by decide)
    { id := 1, title := "apple pie", created_at := 1 } ?_ (by rfl)
  exact List.mem_cons_self _ _

/-! ## Claim C9: merge of direct and relation-sourced matches -/

/-- Distinct ids identify items within a duplicate-free table. -/
theorem nodup_id_inj (l : List Item) (h : (l.map (fun i => i.id)).Nodup) :
    ∀ a ∈ l, ∀ b ∈ l, a.id = b.id → a = b := by
  induction l with
  | nil => intro a ha; cases ha
  | cons x rest ih =>
    rw [List.map_cons, List.nodup_cons] at h
    intro a ha b hb heq
    rcases List.mem_cons.mp ha with rfl | ha2 <;> rcases List.mem_cons.mp hb with rfl | hb2
    · rfl
    · exact absurd (List.mem_map.mpr ⟨b, hb2, heq.symm⟩) h.1
    · exact absurd (List.mem_map.mpr ⟨a, ha2, heq⟩) h.1
    · exact ih h.2 a ha2 b hb2 heq

/-- `find?` by id returns the member itself on a duplicate-free table. -/
theorem find?_id_eq_of_nodup (l : List Item) (h : (l.map (fun i => i.id)).Nodup)
    (it : Item) (hit : it ∈ l) :
    l.find? (fun i => i.id == it.id) = some it := by
  induction l with
  | nil => cases hit
  | cons x rest ih =>
    rw [List.map_cons, List.nodup_cons] at h
    rcases List.mem_cons.mp hit with rfl | hit2
    · rw [List.find?]
      simp
    · have hne : (x.id == it.id) = false := by
        refine beq_eq_false_iff_ne.mpr ?_
        intro hxe
        exact h.1 (List.mem_map.mpr ⟨it, hit2, hxe.symm⟩)
      rw [List.find?, hne]
      exact ih h.2 hit2

/-- The keys of the keep-first dedup are duplicate-free and unseen. -/
theorem dedupByAux_keys_nodup {α β : Type} [DecidableEq β] (key : α → β) :
    ∀ (l : List α) (seen : List β),
      ((dedupByAux key seen l).map key).Nodup
      ∧ ∀ k ∈ (dedupByAux key seen l).map key, k ∉ seen := by
  intro l
  induction l with
  | nil => intro seen; exact ⟨List.nodup_nil, fun k hk => absurd hk (List.not_mem_nil k)⟩
  | cons y rest ih =>
    intro seen
    rw [dedupByAux]
    by_cases hy : key y ∈ seen
    · rw [if_pos hy]
      exact ih seen
    · rw [if_neg hy]
      obtain ⟨ihn, ihs⟩ := ih (key y :: seen)
      constructor
      · rw [List.map_cons, List.nodup_cons]
        refine ⟨?_, ihn⟩
        intro hk
        exact (ihs (key y) hk) (List.mem_cons_self _ _)
      · intro k hk
        rcases List.mem_cons.mp hk with rfl | hk2
        · exact hy
        · intro hks
          exact (ihs k hk2) (List.mem_cons_of_mem _ hks)

/-- Inversion of one edge's contribution to the relation query. -/
theorem relPick_some (itemsT : List Item) (kw : String) (e : Relation) (r : Item)
    (h : relPick itemsT kw e = some r) :
    r ∈ itemsT ∧ r.id = e.item_id
    ∧ ∃ q ∈ itemsT, q.id = e.related_item_id ∧ itemMatches kw q = true := by
  rw [relPick] at h
  cases hsrc : itemsT.find? (fun i => i.id == e.item_id) with
  | none => rw [hsrc] at h; cases h
  | some i =>
    cases htgt : itemsT.find? (fun i => i.id == e.related_item_id) with
    | none => rw [hsrc, htgt] at h; cases h
    | some q =>
      rw [hsrc, htgt] at h
      have h2 : (if itemMatches kw q = true then some i else none) = some r := h
      by_cases hmq : itemMatches kw q = true
      · rw [if_pos hmq] at h2
        cases h2
        refine ⟨List.mem_of_find?_eq_some hsrc, ?_, q, List.mem_of_find?_eq_some htgt, ?_, hmq⟩
        · have := List.find?_some hsrc
          simpa using this
        · have := List.find?_some htgt
          simpa using this
      · rw [if_neg hmq] at h2
        cases h2

/-- Every relation-query row is an item row holding an edge. -/
theorem relatedCandidates_sub (itemsT : List Item) (relT : List Relation) (kw : String) :
    ∀ r ∈ relatedCandidates itemsT relT kw,
      r ∈ itemsT ∧ ∃ e ∈ relT, e.item_id = r.id := by
  intro r hr
  rw [relatedCandidates, dedupBy] at hr
  have h2 := mem_of_dedupByAux (fun i : Item => i.id) _ _ _ hr
  obtain ⟨e, he, hfe⟩ := List.mem_filterMap.mp h2
  obtain ⟨hmem, hid, _⟩ := relPick_some itemsT kw e r hfe
  exact ⟨hmem, e, he, hid.symm⟩

/-- The relation query's rows carry duplicate-free ids (`DISTINCT`). -/
theorem relatedCandidates_ids_nodup (itemsT : List Item) (relT : List Relation)
    (kw : String) :
    ((relatedCandidates itemsT relT kw).map (fun i => i.id)).Nodup :=
  (dedupByAux_keys_nodup (fun i => i.id) (relT.filterMap (relPick itemsT kw)) []).1

/-- On a duplicate-free table, the source of an edge to a matching target
appears among the relation query's rows. -/
theorem relatedCandidates_mem (itemsT : List Item) (relT : List Relation) (kw : String)
    (hnodup : (itemsT.map (fun i => i.id)).Nodup)
    (T P : Item) (f : String) (hT : T ∈ itemsT) (hP : P ∈ itemsT)
    (hPm : itemMatches kw P = true)
    (he : (⟨T.id, P.id, f⟩ : Relation) ∈ relT) :
    T ∈ relatedCandidates itemsT relT kw := by
  have hpick : relPick itemsT kw ⟨T.id, P.id, f⟩ = some T := by
    rw [relPick]
    rw [show itemsT.find? (fun i => i.id == (⟨T.id, P.id, f⟩ : Relation).item_id)
        = some T from find?_id_eq_of_nodup itemsT hnodup T hT]
    rw [show itemsT.find? (fun i => i.id == (⟨T.id, P.id, f⟩ : Relation).related_item_id)
        = some P from find?_id_eq_of_nodup itemsT hnodup P hP]
    show (if itemMatches kw P = true then some T else none) = some T
    rw [if_pos hPm]
  have hTfm : T ∈ relT.filterMap (relPick itemsT kw) :=
    List.mem_filterMap.mpr ⟨⟨T.id, P.id, f⟩, he, hpick⟩
  rw [relatedCandidates, dedupBy]
  refine mem_dedupByAux (fun i : Item => i.id) _ [] T hTfm ?_ (by simp)
  intro a ha b hb hab
  obtain ⟨ea, hea, hfa⟩ := List.mem_filterMap.mp ha
  obtain ⟨eb, heb, hfb⟩ := List.mem_filterMap.mp hb
  exact nodup_id_inj itemsT hnodup a (relPick_some itemsT kw ea a hfa).1
    b (relPick_some itemsT kw eb b hfb).1 hab

/-- The ids of the ordered direct matches are duplicate-free. -/
theorem direct_matches_ids_nodup (itemsT : List Item) (kw : String)
    (hnodup : (itemsT.map (fun i => i.id)).Nodup) :
    ((direct_matches itemsT kw).map (fun i => i.id)).Nodup := by
  refine ((sortDesc_perm (itemsT.filter (fun i => itemMatches kw i))).map
    (fun i => i.id)).nodup_iff.mpr ?_
  exact hnodup.sublist ((List.filter_sublist itemsT).map (fun i => i.id))

/-- Direct matches are exactly the matching rows of the table. -/
theorem direct_matches_mem (itemsT : List Item) (kw : String) (x : Item) :
    x ∈ direct_matches itemsT kw ↔ x ∈ itemsT ∧ itemMatches kw x = true := by
  rw [direct_matches, (sortDesc_perm _).mem_iff, List.mem_filter]

/-- C9: over a duplicate-free item table, the merged search result (fallback
path, no type filter) is deduplicated by id; it is a prefix of the ordered
direct matches followed only by non-matching relation-sourced rows; when the
two query limits do not bite, it equals the merge of all direct matches with
the unseen relation-sourced matches truncated only after the merge; and in
the T-P scenario (edge from non-matching T to matching P, within the limit)
P appears in the direct segment and T in the appended segment. -/
theorem c9_search_merge (itemsT : List Item) (relT : List Relation) (kw : String)
    (lim : Nat) (hnodup : (itemsT.map (fun i => i.id)).Nodup) :
    ((search_items_like itemsT relT kw none lim).map (fun i => i.id)).Nodup
    ∧ (∃ rest, search_items_like itemsT relT kw none lim
        = (direct_matches itemsT kw).take lim ++ rest
        ∧ ∀ r ∈ rest, itemMatches kw r = false ∧ ∃ e ∈ relT, e.item_id = r.id)
    ∧ ((direct_matches itemsT kw).length ≤ lim →
        (relatedCandidates itemsT relT kw).length ≤ lim →
        search_items_like itemsT relT kw none lim
        = ((direct_matches itemsT kw)
            ++ (relatedCandidates itemsT relT kw).filter
              (fun r => !(((direct_matches itemsT kw).map (fun i => i.id)).contains r.id))).take lim)
    ∧ (∀ (T P : Item) (f : String), T ∈ itemsT → P ∈ itemsT →
        itemMatches kw T = false → itemMatches kw P = true →
        (⟨T.id, P.id, f⟩ : Relation) ∈ relT →
        (direct_matches itemsT kw).length + (relatedCandidates itemsT relT kw).length ≤ lim →
        P ∈ (search_items_like itemsT relT kw none lim).take (direct_matches itemsT kw).length
        ∧ T ∈ (search_items_like itemsT relT kw none lim).drop (direct_matches itemsT kw).length) := by
  have hres : search_items_like itemsT relT kw none lim
      = ((direct_matches itemsT kw).take lim
          ++ ((relatedCandidates itemsT relT kw).take lim).filter
            (fun r => !((((direct_matches itemsT kw).take lim).map (fun i => i.id)).contains r.id))).take lim := rfl
  have hDn := direct_matches_ids_nodup itemsT kw hnodup
  have hRn := relatedCandidates_ids_nodup itemsT relT kw
  have hDtn : (((direct_matches itemsT kw).take lim).map (fun i => i.id)).Nodup :=
    hDn.sublist ((List.take_sublist lim _).map _)
  have hFn : ((((relatedCandidates itemsT relT kw).take lim).filter
      (fun r => !((((direct_matches itemsT kw).take lim).map (fun i => i.id)).contains r.id))).map
      (fun i => i.id)).Nodup :=
    hRn.sublist (((List.filter_sublist _).trans (List.take_sublist lim _)).map _)
  have hTid : ∀ r ∈ ((relatedCandidates itemsT relT kw).take lim).filter
      (fun r => !((((direct_matches itemsT kw).take lim).map (fun i => i.id)).contains r.id)),
      r.id ∉ ((direct_matches itemsT kw).take lim).map (fun i => i.id) := by
    intro r hr
    have := (List.mem_filter.mp hr).2
    simpa using this
  refine ⟨?_, ?_, ?_, ?_⟩
  · rw [hres]
    refine List.Nodup.sublist ((List.take_sublist lim _).map _) ?_
    rw [List.map_append]
    refine hDtn.append hFn ?_
    intro a haD haF
    obtain ⟨r, hrF, hrid⟩ := List.mem_map.mp haF
    exact hTid r hrF (hrid ▸ haD)
  · refine ⟨((relatedCandidates itemsT relT kw).take lim).filter
        (fun r => !((((direct_matches itemsT kw).take lim).map (fun i => i.id)).contains r.id))
        |>.take (lim - ((direct_matches itemsT kw).take lim).length), ?_, ?_⟩
    · rw [hres, List.take_append_eq_append_take,
        List.take_of_length_le (by
          rw [List.length_take]
          exact Nat.min_le_left _ _)]
    · intro r hr
      by_cases hDlen : (direct_matches itemsT kw).length ≤ lim
      · have hrF := List.mem_of_mem_take hr
        have hpred := hTid r hrF
        rw [List.take_of_length_le hDlen] at hpred
        have hrR : r ∈ relatedCandidates itemsT relT kw :=
          List.mem_of_mem_take (List.mem_filter.mp hrF).1
        obtain ⟨hrItems, e, he, hid⟩ := relatedCandidates_sub itemsT relT kw r hrR
        refine ⟨?_, e, he, hid⟩
        by_cases hm : itemMatches kw r = true
        · exfalso
          exact hpred (List.mem_map.mpr
            ⟨r, (direct_matches_mem itemsT kw r).mpr ⟨hrItems, hm⟩, rfl⟩)
        · simpa using hm
      · exfalso
        have hlen0 : lim - ((direct_matches itemsT kw).take lim).length = 0 := by
          rw [List.length_take]
          omega
        rw [hlen0] at hr
        cases hr
  · intro hd hr2
    rw [hres, List.take_of_length_le hd, List.take_of_length_le hr2]
  · intro T P f hT hP hTm hPm he hsum
    have hd : (direct_matches itemsT kw).length ≤ lim :=
      le_trans (Nat.le_add_right _ _) hsum
    have hr2 : (relatedCandidates itemsT relT kw).length ≤ lim :=
      le_trans (Nat.le_add_left _ _) hsum
    have hc : search_items_like itemsT relT kw none lim
        = ((direct_matches itemsT kw)
            ++ (relatedCandidates itemsT relT kw).filter
              (fun r => !(((direct_matches itemsT kw).map (fun i => i.id)).contains r.id))).take lim := by
      rw [hres, List.take_of_length_le hd, List.take_of_length_le hr2]
    have hwhole : search_items_like itemsT relT kw none lim
        = (direct_matches itemsT kw)
            ++ (relatedCandidates itemsT relT kw).filter
              (fun r => !(((direct_matches itemsT kw).map (fun i => i.id)).contains r.id)) := by
      rw [hc]
      refine List.take_of_length_le ?_
      rw [List.length_append]
      calc (direct_matches itemsT kw).length
            + ((relatedCandidates itemsT relT kw).filter
              (fun r => !(((direct_matches itemsT kw).map (fun i => i.id)).contains r.id))).length
          ≤ (direct_matches itemsT kw).length + (relatedCandidates itemsT relT kw).length := by
            exact Nat.add_le_add_left (List.length_filter_le _ _) _
        _ ≤ lim := hsum
    have hTnotin : T.id ∉ (direct_matches itemsT kw).map (fun i => i.id) := by
      intro hmem
      obtain ⟨a, haD, haid⟩ := List.mem_map.mp hmem
      obtain ⟨haI, ham⟩ := (direct_matches_mem itemsT kw a).mp haD
      have : a = T := nodup_id_inj itemsT hnodup a haI T hT haid
      rw [this] at ham
      rw [ham] at hTm
      cases hTm
    constructor
    · rw [hwhole, List.take_left]
      exact (direct_matches_mem itemsT kw P).mpr ⟨hP, hPm⟩
    · rw [hwhole, List.drop_left]
      refine List.mem_filter.mpr ⟨relatedCandidates_mem itemsT relT kw hnodup T P f hT hP hPm he, ?_⟩
      simpa using hTnotin

/-- The item table and edge used as the C9 witness: task 2 (no keyword
match) references person 1 (keyword match). -/
def c9items : List Item :=
  [{ id := 1, title := "apple pie", created_at := 1 },
   { id := 2, title := "task", created_at := 2 }]

/-- The C9 witness edge table. -/
def c9rels : List Relation := [⟨2, 1, "assignee"⟩]

/-- C9 witness: the direct match (item 1) occupies the direct segment and
the relation-sourced item 2 follows it. -/
theorem c9_search_merge_witness :
    ({ id := 1, title := "apple pie", created_at := 1 } : Item)
      ∈ (search_items_like c9items c9rels "apple" none 10).take
        (direct_matches c9items "apple").length
    ∧ ({ id := 2, title := "task", created_at := 2 } : Item)
      ∈ (search_items_like c9items c9rels "apple" none 10).drop
        (direct_matches c9items "apple").length := by
  have h := c9_search_merge c9items c9rels "apple" 10 (by decide)
  refine h.2.2.2 { id := 2, title := "task", created_at := 2 }
    { id := 1, title := "apple pie", created_at := 1 } "assignee"
    ?_ ?_ (by rfl) (by rfl) ?_ (by decide)
  · exact List.mem_cons_of_mem _ (List.mem_cons_self _ _)
  · exact List.mem_cons_self _ _
  · exact List.mem_cons_self _ _

end Secretary
